import Mathlib

/-!
Shallow embedding of the `itsa-server/file-upload-handler` repository
(`src/index.js` and `src/lib/file-utils.js`) and proofs about its
transmission tracking and reassembly engine.

JS objects are modelled as association lists, byte payloads as `List Nat`,
the filesystem as a mapping from path to contents, and the asynchronous
promise chains as sequential state passing (each `recieveFile` invocation is
one atomic step, matching the per-transmission serialization the spec
assumes).  External collaborators (`idGenerator`, `Date.now`, `JSON.parse`)
are inputs of the model.
-/

namespace FUH

/-! ### Association lists: the model of JS objects -/

/-- Lookup of a property, modelling JS `obj[key]` (yielding `undefined` as
`none`). -/
def alookup {κ α : Type} [DecidableEq κ] : List (κ × α) → κ → Option α
  | [], _ => none
  | (k, v) :: rest, key => if k = key then some v else alookup rest key

/-- Property assignment, modelling JS `obj[key] = v`: updates the existing
key in place, otherwise appends a new one. -/
def aset {κ α : Type} [DecidableEq κ] : List (κ × α) → κ → α → List (κ × α)
  | [], key, v => [(key, v)]
  | (k, w) :: rest, key, v =>
    if k = key then (k, v) :: rest else (k, w) :: aset rest key v

/-- Property removal, modelling JS `delete obj[key]`. -/
def aerase {κ α : Type} [DecidableEq κ] : List (κ × α) → κ → List (κ × α)
  | [], _ => []
  | (k, w) :: rest, key =>
    if k = key then aerase rest key else (k, w) :: aerase rest key

/-- Keys of a JS object. -/
def akeys {κ α : Type} (l : List (κ × α)) : List κ := l.map Prod.fst

/-! ### Decimal rendering of the numeric suffix

JS renders the probe counter with `'-' + i` (decimal).  `decDigits` is a
fuel-bounded big-endian digit list; `natStr n` is the decimal string. -/

/-- Big-endian decimal digits of `n`, computed with `fuel` division steps
(`fuel ≥ n` always suffices). -/
def decDigits : Nat → Nat → List Nat
  | 0, _ => []
  | fuel + 1, n => if n = 0 then [] else decDigits fuel (n / 10) ++ [n % 10]

/-- Reading a big-endian digit list back as a number. -/
def ofDecDigits (l : List Nat) : Nat := l.foldl (fun acc d => acc * 10 + d) 0

/-- Decimal string of a natural number, as JS `String(n)` produces. -/
def natStr (n : Nat) : String :=
  if n = 0 then "0" else String.mk ((decDigits n n).map Nat.digitChar)

/-! ### Filesystem model -/

/-- One byte payload. -/
abbrev Bytes := List Nat

/-- The filesystem: a mapping from path to file contents. -/
abbrev FS := List (String × Bytes)

/-- File existence check, modelling `fsp.exists`. -/
def fexists (fs : FS) (p : String) : Bool := (alookup fs p).isSome

/-! ### Temp name allocation (`getUniqueFilename` of both source files)

The source builds a base name from `idGenerator(TMP_FILE) + '-' + Date.now()`
and probes `base`, `base-1`, `base-2`, … until a non-existing name is found.
The id counter and the clock are external collaborators, supplied as `Nat`
inputs of the model. -/

/-- Probe candidate `i`: `filename + (i>0 ? '-'+i : '')`. -/
def suffixName (filename : String) (i : Nat) : String :=
  filename ++ (if 0 < i then "-" ++ natStr i else "")

/-- The recursive `nameReserved` closure: probe `suffixName filename i`,
recurse with `i+1` while the name exists, and return the free name with the
(pre-dotted) extension `ext` appended, as `fullFilename+(extention || '')`
does in `file-utils.js` (the `index.js` copy passes no extension, i.e.
`ext = ""`).  The source recursion is unbounded; `fuel` bounds it here and
`nameReserved_isSome` shows the callers' fuel always suffices. -/
def nameReserved (fs : FS) (ext : String) (filename : String) : Nat → Nat → Option String
  | _, 0 => none
  | i, fuel + 1 =>
    if fexists fs (suffixName filename i) then nameReserved fs ext filename (i + 1) fuel
    else some (suffixName filename i ++ ext)

/-- Generated base filename `idGenerator(TMP_FILE) + '-' + Date.now()`; the
process-unique id counter value and the clock are inputs. -/
def tmpFilename (id now : Nat) : String :=
  "tmp-file-" ++ natStr id ++ "-" ++ natStr now

/-- Model of `getUniqueFilename` from `src/index.js` (no extension
handling). -/
def getUniqueFilename (fs : FS) (folder : String) (id now : Nat) : Option String :=
  nameReserved fs "" (folder ++ tmpFilename id now) 0 (fs.length + 1)

/-- The extension argument of `fileUtils.getUniqueFilename` after
`extention && (extention = "." + extention)`: JS treats an absent or empty
extension as falsy. -/
def extPart (extention : Option String) : String :=
  match extention with
  | some e => if e = "" then "" else "." ++ e
  | none => ""

namespace FileUtils

/-- Model of `fileUtils.getUniqueFilename` from `src/lib/file-utils.js`:
probes the extension-less candidates but appends the dotted extension to the
finally chosen name. -/
def getUniqueFilename (fs : FS) (folder : String) (id now : Nat)
    (extention : Option String) : Option String :=
  nameReserved fs (extPart extention) (folder ++ tmpFilename id now) 0 (fs.length + 1)

end FileUtils

/-! ### File helpers shared by the engine -/

/-- Model of `removeFile` from `src/index.js`: delete the file if it exists
(removal of a missing path is not an error). -/
def removeFile (fs : FS) (filename : String) : FS :=
  if fexists fs filename then aerase fs filename else fs

namespace FileUtils

/-- Model of `fileUtils.removeFile` from `src/lib/file-utils.js` (verbatim
duplicate of the `index.js` helper). -/
def removeFile (fs : FS) (filename : String) : FS :=
  if fexists fs filename then aerase fs filename else fs

end FileUtils

/-- A write stream as created by `fs.createWriteStream`: its target path and
whether `end` has been called on it. -/
structure WStream where
  path : String
  closed : Bool
deriving DecidableEq, Repr

/-- Model of `fs.createWriteStream(p)`: the file is created (truncated)
immediately. -/
def createWriteStream (fs : FS) (p : String) : WStream × FS :=
  (⟨p, false⟩, aset fs p [])

/-- Model of `wstream.write(data)`: append to the target file. -/
def wwrite (fs : FS) (ws : WStream) (d : Bytes) : FS :=
  aset fs ws.path ((alookup fs ws.path).getD [] ++ d)

/-! ### Transmission records -/

/-- One in-flight transmission's bookkeeping object, as stored in
`FILE_TRANSMISSIONS[clientId][transId]`: the running byte count, the fields
set by the terminal chunk (`count`, `filename`, `data`), and the numeric
keys mapping each 1-based chunk index to its temp file path. -/
structure Transmission where
  cummulatedSize : Nat
  count : Option Nat := none
  filename : Option String := none
  data : Option (List (String × String)) := none
  chunks : List (Nat × String) := []
deriving DecidableEq, Repr

/-- Number of own keys of the transmission's JS object, as `.size()` counts
them: `cummulatedSize` is always present, `count`/`filename`/`data` when
set, and one numeric key per recorded chunk. -/
def Transmission.sizeKeys (t : Transmission) : Nat :=
  1 + (if t.count.isSome then 1 else 0) + (if t.filename.isSome then 1 else 0) +
    (if t.data.isSome then 1 else 0) + t.chunks.length

/-- States the handler actually produces set `count`, `filename` and `data`
together (all three are written exactly when the terminal chunk arrives). -/
def Transmission.Sync (t : Transmission) : Prop :=
  t.count.isSome = t.filename.isSome ∧ t.count.isSome = t.data.isSome

/-! ### The Assembler (`appendFileData` / `getFinalFile`) -/

/-- Outcome of the chunk-appending loop: the stream and filesystem on
success, or the stream and filesystem as they stand when a chunk read
rejects (the rejection propagates out of the promise chain). -/
inductive AppendResult where
  | ok (ws : WStream) (fs : FS)
  | err (ws : WStream) (fs : FS)
deriving DecidableEq, Repr

/-- Cleanup in the `finally` of `wstream.endPromise()`: remove every stored
chunk file (`transmission.each` over the keys that are valid numbers). -/
def removeChunkFiles (fs : FS) (t : Transmission) : FS :=
  t.chunks.foldl (fun acc kv => removeFile acc kv.2) fs

/-- Model of the recursive `appendFileData` closure inside `getFinalFile`:
read chunk `part`, append its bytes to the output stream; once
`part === partCount`, end the stream and delete the chunk files; a missing
chunk record or chunk file makes `fsp.readFile` reject, and the rejection
propagates with the stream left as it is.  The recursion advances `part` by
one per call, so the callers' `fuel = partCount` covers parts
`1..partCount`. -/
def appendFileData (t : Transmission) (partCount : Nat) :
    Nat → WStream → FS → Nat → AppendResult
  | _, ws, fs, 0 => .err ws fs
  | part, ws, fs, fuel + 1 =>
    match alookup t.chunks part with
    | none => .err ws fs
    | some path =>
      match alookup fs path with
      | none => .err ws fs
      | some d =>
        let fs1 := wwrite fs ws d
        if part = partCount then
          .ok { ws with closed := true } (removeChunkFiles fs1 t)
        else
          appendFileData t partCount (part + 1) ws fs1 fuel

/-- Result of a successful `getFinalFile`. -/
structure FinalFile where
  originalFilename : Option String
  tmpBuildFilename : String
deriving DecidableEq, Repr

/-- Model of `getFinalFile` from `src/index.js`: allocate a unique output
name (no extension), stream chunks `1..count` into it in ascending order,
then remove the intermediate chunk files. -/
def getFinalFile (fs : FS) (folder : String) (id now : Nat) (t : Transmission) :
    Option FinalFile × FS :=
  match getUniqueFilename fs folder id now with
  | none => (none, fs)
  | some tmpBuildFilename =>
    let ws0 := (createWriteStream fs tmpBuildFilename).1
    let fs0 := (createWriteStream fs tmpBuildFilename).2
    match appendFileData t (t.count.getD 0) 1 ws0 fs0 (t.count.getD 0) with
    | .ok _ fs1 => (some ⟨t.filename, tmpBuildFilename⟩, fs1)
    | .err _ fs1 => (none, fs1)

/-- Extension of a filename: the characters after the last dot, if any
(`filename.lastIndexOf(".")` / `substr(dot+1)` in the source). -/
def extOfChars : List Char → Option (List Char)
  | [] => none
  | c :: rest =>
    match extOfChars rest with
    | some e => some e
    | none => if c = '.' then some rest else none

/-- Extension of a filename as an optional string. -/
def extOf (filename : String) : Option String :=
  (extOfChars filename.data).map String.mk

namespace FileUtils

/-- Model of `fileUtils.getFinalFile` from `src/lib/file-utils.js`: the same
assembly, except that the output name carries the file extension of
`transmission.filename`.  A missing `filename` makes
`transmission.filename.lastIndexOf` throw, modelled as a failure. -/
def getFinalFile (fs : FS) (folder : String) (id now : Nat) (t : Transmission) :
    Option FinalFile × FS :=
  match t.filename with
  | none => (none, fs)
  | some fn =>
    match FileUtils.getUniqueFilename fs folder id now (extOf fn) with
    | none => (none, fs)
    | some tmpBuildFilename =>
      let ws0 := (createWriteStream fs tmpBuildFilename).1
      let fs0 := (createWriteStream fs tmpBuildFilename).2
      match appendFileData t (t.count.getD 0) 1 ws0 fs0 (t.count.getD 0) with
      | .ok _ fs1 => (some ⟨t.filename, tmpBuildFilename⟩, fs1)
      | .err _ fs1 => (none, fs1)

end FileUtils

/-! ### The Transmission Registry (`recieveFile` of `src/index.js`) -/

/-- One `handleFile` instance's resolved configuration: the temp directory
(trailing slash already ensured), the max file size after
`maxFileSize || globalMaxFileSize || DEF_MAX_FILESIZE`, and the
`JSON.parse`-with-reviver collaborator (`none` models a parse throw). -/
structure Config where
  tmpDir : String
  maxFileSize : Nat
  jsonParse : String → Option (List (String × String))

/-- The registry `FILE_TRANSMISSIONS`: client id to transmission id to
transmission record. -/
abbrev Registry := List (String × List (String × Transmission))

/-- Global state threaded between `recieveFile` invocations: the registry,
the filesystem, and the external id generator's counter. -/
structure GState where
  registry : Registry := []
  fs : FS := []
  nextId : Nat := 0
deriving Repr

/-- One chunk request as seen by `recieveFile`, after the Upload Gateway
extracted the headers: `x-clientid`, `x-transid`, `x-partial` (a positive
1-based integer), the payload bytes, `x-filename` (present exactly on the
terminal chunk; JS treats an empty string as absent), `x-data`,
`x-total-size`, and the clock value for this request. -/
structure Arrival where
  clientId : String
  transId : String
  partId : Nat
  filedata : Bytes
  originalFilename : Option String := none
  xdata : Option String := none
  totalSize : Option Nat := none
  now : Nat := 0

/-- What one `recieveFile` call reports back to the gateway: `busy` for an
intermediate chunk, `quotaExceeded` for the 403 rejection, `complete` with
the output path and client filename handed to the callback together with the
output file's bytes at that moment, or `ioError` when a filesystem step
rejected (logged, no reply). -/
inductive RecieveResult where
  | busy
  | quotaExceeded
  | complete (tmpBuildFilename : String) (originalFilename : Option String) (contents : Bytes)
  | ioError
deriving DecidableEq, Repr

/-- Lines 280-289 of `src/index.js`: look up or create
`FILE_TRANSMISSIONS[clientId][transId]` and add the payload length to its
`cummulatedSize` (a fresh record starts at the payload length). -/
def bumpSize (s : GState) (a : Arrival) : Transmission :=
  match alookup ((alookup s.registry a.clientId).getD []) a.transId with
  | none => { cummulatedSize := a.filedata.length }
  | some tr => { tr with cummulatedSize := tr.cummulatedSize + a.filedata.length }

/-- Line 302: the Quota Enforcer's condition,
`(totalSize > maxFileSize) || (cummulatedSize > maxFileSize)` (an absent
`x-total-size` header compares as false). -/
def quotaHit (cfg : Config) (a : Arrival) (tr0 : Transmission) : Bool :=
  (match a.totalSize with
   | some t => decide (t > cfg.maxFileSize)
   | none => false) || decide (tr0.cummulatedSize > cfg.maxFileSize)

/-- Lines 322-343: record the stored chunk's temp path under the numeric
key, and, when the terminal chunk's `x-filename` is (truthily) present, set
`count = parseInt(partialId)`, `filename`, and `data` (parsed from `x-data`;
a parse throw or an absent/empty header yields the empty mapping). -/
def storeAndMark (cfg : Config) (tr0 : Transmission) (a : Arrival)
    (fullFilename : String) : Transmission :=
  let tr1 := { tr0 with chunks := aset tr0.chunks a.partId fullFilename }
  match a.originalFilename with
  | none => tr1
  | some ofn =>
    if ofn = "" then tr1
    else
      let d := match a.xdata with
        | none => []
        | some ds => if ds = "" then [] else (cfg.jsonParse ds).getD []
      { tr1 with count := some a.partId, filename := some ofn, data := some d }

/-- Line 346: `partCount && (size() === partCount + 4)` — the completion
test (JS truthiness makes an unknown or zero `count` fail it). -/
def completeCheck (t : Transmission) : Bool :=
  decide (t.count.getD 0 ≠ 0) && decide (t.sizeKeys = t.count.getD 0 + 4)

/-- Remove `FILE_TRANSMISSIONS[clientId][transId]` from the registry and,
when the client is left without transmissions, the client entry too
(lines 303-307 and 374-378). -/
def eraseTransmission (reg : Registry) (clientMap : List (String × Transmission))
    (clientId transId : String) : Registry :=
  let clientMap1 := aerase clientMap transId
  if clientMap1.length = 0 then aerase reg clientId
  else aset reg clientId clientMap1

/-- Model of one `recieveFile(request, reply, …)` invocation from
`src/index.js`, as one atomic step (the promise chain of a single request
runs to completion; per-transmission serialization is assumed, as §5 of the
spec requires).  Returns the gateway-visible result and the new global
state. -/
def recieveFile (cfg : Config) (s : GState) (a : Arrival) : RecieveResult × GState :=
  let clientMap0 := (alookup s.registry a.clientId).getD []
  let tr0 := bumpSize s a
  let registry1 := aset s.registry a.clientId (aset clientMap0 a.transId tr0)
  if quotaHit cfg a tr0 then
    -- abort: drop the registry entry (and an emptied client), reply 403;
    -- the stored chunk files are not touched
    (.quotaExceeded,
      { s with registry :=
          (eraseTransmission registry1 (aset clientMap0 a.transId tr0) a.clientId a.transId) })
  else
    match getUniqueFilename s.fs cfg.tmpDir s.nextId a.now with
    | none => (.ioError, { s with registry := registry1 })
    | some fullFilename =>
      -- write the chunk and wait for endPromise, then do the bookkeeping
      let fs1 := aset s.fs fullFilename a.filedata
      let tr2 := storeAndMark cfg tr0 a fullFilename
      let registry2 := aset s.registry a.clientId (aset clientMap0 a.transId tr2)
      if completeCheck tr2 then
        match getFinalFile fs1 cfg.tmpDir (s.nextId + 1) a.now tr2 with
        | (some filedata, fs2) =>
          -- the callback observes the assembled file, then the entry and the
          -- final file are removed
          let contents := (alookup fs2 filedata.tmpBuildFilename).getD []
          let registry3 := eraseTransmission registry2 (aset clientMap0 a.transId tr2)
            a.clientId a.transId
          let fs3 := removeFile fs2 filedata.tmpBuildFilename
          (.complete filedata.tmpBuildFilename filedata.originalFilename contents,
            { registry := registry3, fs := fs3, nextId := s.nextId + 2 })
        | (none, fs2) =>
          (.ioError, { registry := registry2, fs := fs2, nextId := s.nextId + 2 })
      else
        (.busy, { registry := registry2, fs := fs1, nextId := s.nextId + 1 })

/-- Process a list of chunk arrivals in order, collecting each call's
result. -/
def runArrivals (cfg : Config) : GState → List Arrival → GState × List RecieveResult
  | s, [] => (s, [])
  | s, a :: rest =>
    let step := recieveFile cfg s a
    let run := runArrivals cfg step.2 rest
    (run.1, step.1 :: run.2)

/-- The arrival of chunk `i` of an `N`-chunk transmission for the pair
`(c, t)`: the terminal chunk (index `N`) carries the client filename, the
others do not; no metadata and no declared total size. -/
def mkArrival (c t : String) (N : Nat) (payload : Nat → Bytes) (fname : String)
    (i : Nat) : Arrival :=
  { clientId := c, transId := t, partId := i, filedata := payload i,
    originalFilename := if i = N then some fname else none }

/-- The transmission record present after the chunk indices listed in `done`
(with temp paths `ps`, pairwise aligned) have arrived, for an `N`-chunk
transmission whose terminal chunk carries `fname`. -/
def trOf (N : Nat) (payload : Nat → Bytes) (fname : String) (done : List Nat)
    (ps : List String) : Transmission :=
  { cummulatedSize := (done.map (fun j => (payload j).length)).sum,
    count := if N ∈ done then some N else none,
    filename := if N ∈ done then some fname else none,
    data := if N ∈ done then some [] else none,
    chunks := done.zip ps }


/-! ### Supporting lemmas -/

theorem alookup_aset {κ α : Type} [DecidableEq κ] (l : List (κ × α)) (k : κ) (v : α) (k' : κ) :
    alookup (aset l k v) k' = if k = k' then some v else alookup l k' := by
  induction l with
  | nil => by_cases h : k = k' <;> simp [aset, alookup, h]
  | cons hd tl ih =>
    obtain ⟨k0, v0⟩ := hd
    by_cases h0 : k0 = k
    · subst h0
      by_cases h1 : k0 = k' <;> simp [aset, alookup, h1]
    · by_cases h1 : k0 = k'
      · subst h1
        have hne : ¬ k = k0 := fun h => h0 h.symm
        simp [aset, alookup, h0, hne]
      · simp [aset, alookup, h0, h1, ih]

theorem alookup_aerase {κ α : Type} [DecidableEq κ] (l : List (κ × α)) (k k' : κ) :
    alookup (aerase l k) k' = if k = k' then none else alookup l k' := by
  induction l with
  | nil => by_cases h : k = k' <;> simp [aerase, alookup, h]
  | cons hd tl ih =>
    obtain ⟨k0, v0⟩ := hd
    by_cases h0 : k0 = k
    · subst h0
      by_cases h1 : k0 = k'
      · subst h1; simp [aerase, ih]
      · simp [aerase, alookup, h1, ih]
    · by_cases h1 : k0 = k'
      · subst h1
        have hne : ¬ k = k0 := fun h => h0 h.symm
        simp [aerase, alookup, h0, hne]
      · simp [aerase, alookup, h0, h1, ih]

theorem length_aset {κ α : Type} [DecidableEq κ] (l : List (κ × α)) (k : κ) (v : α) :
    (aset l k v).length = if (alookup l k).isSome then l.length else l.length + 1 := by
  induction l with
  | nil => simp [aset, alookup]
  | cons hd tl ih =>
    obtain ⟨k0, v0⟩ := hd
    by_cases h0 : k0 = k <;> simp [aset, alookup, h0, ih]
    by_cases h1 : (alookup tl k).isSome <;> simp [h1]

theorem aerase_of_alookup_none {κ α : Type} [DecidableEq κ] (l : List (κ × α)) (k : κ)
    (h : alookup l k = none) : aerase l k = l := by
  induction l with
  | nil => simp [aerase]
  | cons hd tl ih =>
    obtain ⟨k0, v0⟩ := hd
    by_cases h0 : k0 = k
    · simp [alookup, h0] at h
    · simp [alookup, h0] at h
      simp [aerase, h0, ih h]

theorem aerase_cons_self {κ α : Type} [DecidableEq κ] (l : List (κ × α)) (k : κ) (v : α)
    (h : alookup l k = none) : aerase ((k, v) :: l) k = l := by
  simp [aerase, aerase_of_alookup_none l k h]

theorem ofDecDigits_append_digit (l : List Nat) (d : Nat) :
    ofDecDigits (l ++ [d]) = ofDecDigits l * 10 + d := by
  simp [ofDecDigits, List.foldl_append]

theorem ofDecDigits_decDigits : ∀ fuel n, n ≤ fuel → ofDecDigits (decDigits fuel n) = n := by
  intro fuel
  induction fuel with
  | zero => intro n h; interval_cases n; simp [decDigits, ofDecDigits]
  | succ fuel ih =>
    intro n h
    by_cases h0 : n = 0
    · simp [decDigits, h0, ofDecDigits]
    · have hdiv : n / 10 ≤ fuel := by
        have : n / 10 < n := Nat.div_lt_self (Nat.pos_of_ne_zero h0) (by omega)
        omega
      simp [decDigits, h0, ofDecDigits_append_digit, ih _ hdiv]
      omega

theorem decDigits_lt_ten : ∀ fuel n d, d ∈ decDigits fuel n → d < 10 := by
  intro fuel
  induction fuel with
  | zero => intro n d h; simp [decDigits] at h
  | succ fuel ih =>
    intro n d h
    by_cases h0 : n = 0
    · simp [decDigits, h0] at h
    · simp [decDigits, h0] at h
      rcases h with h | h
      · exact ih _ _ h
      · subst h; exact Nat.mod_lt _ (by omega)

theorem digitChar_inj_lt : ∀ a, a < 10 → ∀ b, b < 10 →
    Nat.digitChar a = Nat.digitChar b → a = b := by decide

theorem map_digitChar_inj : ∀ l1 l2 : List Nat, (∀ x ∈ l1, x < 10) → (∀ x ∈ l2, x < 10) →
    l1.map Nat.digitChar = l2.map Nat.digitChar → l1 = l2 := by
  intro l1
  induction l1 with
  | nil => intro l2 _ _ h; cases l2 <;> simp_all
  | cons a tl ih =>
    intro l2 h1 h2 h
    cases l2 with
    | nil => simp at h
    | cons b tl2 =>
      simp at h
      have ha : a < 10 := h1 a (by simp)
      have hb : b < 10 := h2 b (by simp)
      have := digitChar_inj_lt a ha b hb h.1
      subst this
      have := ih tl2 (fun x hx => h1 x (by simp [hx])) (fun x hx => h2 x (by simp [hx])) h.2
      simp [this]

theorem natStr_inj_pos {m n : Nat} (hm : 0 < m) (hn : 0 < n) (h : natStr m = natStr n) :
    m = n := by
  unfold natStr at h
  rw [if_neg (by omega), if_neg (by omega)] at h
  injection h with h
  have := map_digitChar_inj _ _ (fun x hx => decDigits_lt_ten _ _ _ hx)
    (fun x hx => decDigits_lt_ten _ _ _ hx) h
  have h1 := ofDecDigits_decDigits m m (le_refl m)
  have h2 := ofDecDigits_decDigits n n (le_refl n)
  rw [← h1, ← h2, this]

theorem fexists_iff_mem_akeys (fs : FS) (p : String) :
    fexists fs p = true ↔ p ∈ akeys fs := by
  induction fs with
  | nil => simp [fexists, alookup, akeys]
  | cons hd tl ih =>
    obtain ⟨q, c⟩ := hd
    by_cases h : q = p
    · subst h; simp [fexists, alookup, akeys]
    · have heq : fexists ((q, c) :: tl) p = fexists tl p := by simp [fexists, alookup, h]
      rw [heq, ih]
      show p ∈ akeys tl ↔ p ∈ q :: akeys tl
      constructor
      · exact fun hm => List.mem_cons_of_mem _ hm
      · intro hm
        rcases List.mem_cons.mp hm with h1 | h1
        · exact absurd h1.symm h
        · exact h1

theorem suffixName_inj (filename : String) : ∀ {i j : Nat},
    suffixName filename i = suffixName filename j → i = j := by
  have hdata : ∀ i j : Nat, suffixName filename i = suffixName filename j →
      (if 0 < i then "-" ++ natStr i else "").data =
      (if 0 < j then "-" ++ natStr j else "").data := by
    intro i j h
    have := congrArg String.data h
    simp only [suffixName, String.data_append] at this
    exact List.append_cancel_left this
  intro i j h
  rcases Nat.eq_zero_or_pos i with hi | hi <;> rcases Nat.eq_zero_or_pos j with hj | hj
  · omega
  · have := hdata i j h
    rw [if_neg (by omega), if_pos hj] at this
    simp [String.data_append] at this
  · have := hdata i j h
    rw [if_pos hi, if_neg (by omega)] at this
    simp [String.data_append] at this
  · have := hdata i j h
    rw [if_pos hi, if_pos hj] at this
    simp only [String.data_append] at this
    have hs : (natStr i).data = (natStr j).data := List.append_cancel_left this
    have : natStr i = natStr j := by
      cases hni : natStr i; cases hnj : natStr j
      simp_all
    exact natStr_inj_pos hi hj this

theorem nameReserved_isSome_of_free (fs : FS) (ext filename : String) :
    ∀ fuel i, (∃ k, k < fuel ∧ fexists fs (suffixName filename (i + k)) = false) →
    (nameReserved fs ext filename i fuel).isSome := by
  intro fuel
  induction fuel with
  | zero => intro i h; omega
  | succ fuel ih =>
    intro i h
    by_cases hex : fexists fs (suffixName filename i)
    · obtain ⟨k, hk, hfree⟩ := h
      have hk0 : k ≠ 0 := by
        intro h0; subst h0; simp at hfree; rw [hfree] at hex; simp at hex
      obtain ⟨k', rfl⟩ : ∃ k', k = k' + 1 := ⟨k - 1, by omega⟩
      have : (nameReserved fs ext filename (i + 1) fuel).isSome :=
        ih (i + 1) ⟨k', by omega, by rw [show i + 1 + k' = i + (k' + 1) by omega]; exact hfree⟩
      simpa [nameReserved, hex] using this
    · simp [nameReserved, hex]

theorem exists_free_suffix (fs : FS) (filename : String) :
    ∃ k, k < fs.length + 1 ∧ fexists fs (suffixName filename k) = false := by
  by_contra hall
  push_neg at hall
  have hmem : ∀ k, k < fs.length + 1 → suffixName filename k ∈ akeys fs := by
    intro k hk
    have := hall k hk
    rw [← fexists_iff_mem_akeys]
    cases h : fexists fs (suffixName filename k)
    · exact absurd h this
    · rfl
  have hinj : Function.Injective (suffixName filename) := by
    intro a b h; exact suffixName_inj filename h
  have hnodup : ((List.range (fs.length + 1)).map (suffixName filename)).Nodup :=
    (List.nodup_range _).map hinj
  have hsub : ((List.range (fs.length + 1)).map (suffixName filename)) ⊆ akeys fs := by
    intro x hx
    simp only [List.mem_map, List.mem_range] at hx
    obtain ⟨k, hk, rfl⟩ := hx
    exact hmem k hk
  have hlen1 : ((List.range (fs.length + 1)).map (suffixName filename)).toFinset.card
      = fs.length + 1 := by
    rw [List.toFinset_card_of_nodup hnodup]; simp
  have hcard : ((List.range (fs.length + 1)).map (suffixName filename)).toFinset.card
      ≤ (akeys fs).toFinset.card := by
    apply Finset.card_le_card
    intro x hx
    rw [List.mem_toFinset] at hx ⊢
    exact hsub hx
  have hlen2 : (akeys fs).toFinset.card ≤ fs.length := by
    have := (akeys fs).toFinset_card_le
    simpa [akeys] using this
  omega

theorem nameReserved_isSome (fs : FS) (ext filename : String) :
    (nameReserved fs ext filename 0 (fs.length + 1)).isSome := by
  apply nameReserved_isSome_of_free
  obtain ⟨k, hk, hfree⟩ := exists_free_suffix fs filename
  exact ⟨k, hk, by simpa using hfree⟩

theorem nameReserved_spec (fs : FS) (ext filename : String) :
    ∀ fuel i p, nameReserved fs ext filename i fuel = some p →
    ∃ j, i ≤ j ∧ p = suffixName filename j ++ ext ∧
      fexists fs (suffixName filename j) = false ∧
      (∀ k, i ≤ k → k < j → fexists fs (suffixName filename k) = true) := by
  intro fuel
  induction fuel with
  | zero => intro i p h; simp [nameReserved] at h
  | succ fuel ih =>
    intro i p h
    by_cases hex : fexists fs (suffixName filename i)
    · rw [nameReserved, if_pos hex] at h
      obtain ⟨j, hij, hp, hfree, hbusy⟩ := ih (i + 1) p h
      refine ⟨j, by omega, hp, hfree, ?_⟩
      intro k hk1 hk2
      rcases Nat.lt_or_ge k (i + 1) with hk | hk
      · have : k = i := by omega
        subst this; exact hex
      · exact hbusy k hk hk2
    · rw [nameReserved, if_neg hex] at h
      refine ⟨i, le_refl i, by simpa using h.symm, by simpa using hex, ?_⟩
      intro k hk1 hk2; omega

theorem alookup_aset_self {κ α : Type} [DecidableEq κ] (l : List (κ × α)) (k : κ) (v : α) :
    alookup (aset l k v) k = some v := by
  rw [alookup_aset, if_pos rfl]

theorem alookup_aset_ne {κ α : Type} [DecidableEq κ] (l : List (κ × α)) (k : κ) (v : α)
    (k' : κ) (h : k ≠ k') : alookup (aset l k v) k' = alookup l k' := by
  rw [alookup_aset, if_neg h]

theorem aset_aset_same {κ α : Type} [DecidableEq κ] (l : List (κ × α)) (k : κ) (v w : α) :
    aset (aset l k v) k w = aset l k w := by
  induction l with
  | nil => simp [aset]
  | cons hd tl ih =>
    obtain ⟨k0, v0⟩ := hd
    by_cases h0 : k0 = k <;> simp [aset, h0, ih]

theorem aset_ne_nil {κ α : Type} [DecidableEq κ] (l : List (κ × α)) (k : κ) (v : α) :
    (aset l k v).length ≠ 0 := by
  rw [length_aset]
  by_cases h : (alookup l k).isSome
  · rw [if_pos h]
    cases l with
    | nil => simp [alookup] at h
    | cons hd tl => simp
  · rw [if_neg h]; omega

theorem getUniqueFilename_isSome (fs : FS) (folder : String) (id now : Nat) :
    (getUniqueFilename fs folder id now).isSome :=
  nameReserved_isSome fs "" (folder ++ tmpFilename id now)

theorem getUniqueFilename_fresh (fs : FS) (folder : String) (id now : Nat) (p : String)
    (h : getUniqueFilename fs folder id now = some p) : fexists fs p = false := by
  obtain ⟨j, _, hp, hfree, _⟩ := nameReserved_spec fs "" (folder ++ tmpFilename id now) _ _ _ h
  have : p = suffixName (folder ++ tmpFilename id now) j := by
    rw [hp]; exact String.append_empty _
  rw [this]; exact hfree

theorem recieveFile_quota (cfg : Config) (s : GState) (a : Arrival)
    (h : quotaHit cfg a (bumpSize s a) = true) :
    recieveFile cfg s a = (.quotaExceeded,
      { s with registry :=
          (eraseTransmission
            (aset s.registry a.clientId
              (aset ((alookup s.registry a.clientId).getD []) a.transId (bumpSize s a)))
            (aset ((alookup s.registry a.clientId).getD []) a.transId (bumpSize s a))
            a.clientId a.transId) }) := by
  simp only [recieveFile]
  rw [if_pos h]

theorem recieveFile_busy (cfg : Config) (s : GState) (a : Arrival) (p : String)
    (hq : quotaHit cfg a (bumpSize s a) = false)
    (halloc : getUniqueFilename s.fs cfg.tmpDir s.nextId a.now = some p)
    (hcc : completeCheck (storeAndMark cfg (bumpSize s a) a p) = false) :
    recieveFile cfg s a = (.busy,
      { registry := aset s.registry a.clientId
          (aset ((alookup s.registry a.clientId).getD []) a.transId
            (storeAndMark cfg (bumpSize s a) a p)),
        fs := aset s.fs p a.filedata, nextId := s.nextId + 1 }) := by
  simp only [recieveFile, halloc]
  rw [if_neg (by simp [hq]), if_neg (by simp [hcc])]

theorem recieveFile_assembled (cfg : Config) (s : GState) (a : Arrival) (p : String)
    (fd : FinalFile) (fs2 : FS)
    (hq : quotaHit cfg a (bumpSize s a) = false)
    (halloc : getUniqueFilename s.fs cfg.tmpDir s.nextId a.now = some p)
    (hcc : completeCheck (storeAndMark cfg (bumpSize s a) a p) = true)
    (hfin : getFinalFile (aset s.fs p a.filedata) cfg.tmpDir (s.nextId + 1) a.now
      (storeAndMark cfg (bumpSize s a) a p) = (some fd, fs2)) :
    recieveFile cfg s a =
      (.complete fd.tmpBuildFilename fd.originalFilename
          ((alookup fs2 fd.tmpBuildFilename).getD []),
        { registry :=
            (eraseTransmission
              (aset s.registry a.clientId
                (aset ((alookup s.registry a.clientId).getD []) a.transId
                  (storeAndMark cfg (bumpSize s a) a p)))
              (aset ((alookup s.registry a.clientId).getD []) a.transId
                (storeAndMark cfg (bumpSize s a) a p))
              a.clientId a.transId),
          fs := removeFile fs2 fd.tmpBuildFilename, nextId := s.nextId + 2 }) := by
  simp only [recieveFile, halloc, hfin]
  rw [if_neg (by simp [hq]), if_pos hcc]

theorem recieveFile_quota_iff (cfg : Config) (s : GState) (a : Arrival) :
    (recieveFile cfg s a).1 = .quotaExceeded ↔ quotaHit cfg a (bumpSize s a) = true := by
  by_cases h : quotaHit cfg a (bumpSize s a) = true
  · rw [recieveFile_quota cfg s a h]
    simp [h]
  · rw [Bool.not_eq_true] at h
    have hne : (recieveFile cfg s a).1 ≠ .quotaExceeded := by
      simp only [recieveFile]
      rw [if_neg (by simp [h])]
      split
      · simp
      · split
        · split <;> simp
        · simp
    constructor
    · intro hres; exact absurd hres hne
    · intro hh; rw [hh] at h; simp at h

/-! ### Claim theorems -/

/-- C8 (counterexample): `fileUtils.getUniqueFilename` probes only the
extension-less base; with `/d/tmp-file-0-0.png` already on disk it still
returns exactly that occupied path, so the returned path (including its
extension) is not guaranteed to be non-existing, contrary to the claim. -/
theorem c8_counterexample :
    FileUtils.getUniqueFilename [("/d/tmp-file-0-0.png", [1])] "/d/" 0 0 (some "png")
      = some "/d/tmp-file-0-0.png" ∧
    fexists [("/d/tmp-file-0-0.png", [1])] "/d/tmp-file-0-0.png" = true := by decide

/-- C8 (amended): `fileUtils.getUniqueFilename` returns a name found by
probing `base`, `base-1`, `base-2`, … with an incrementing numeric suffix
until an unused name is found, and appends the extension only to the final
chosen name — but the non-existence guarantee holds for the extension-less
chosen base (and hence for the full returned path only when the extension is
absent or empty), not for the returned path including its extension. -/
theorem c8_amended (fs : FS) (folder : String) (id now : Nat) (extention : Option String) :
    ∃ p, FileUtils.getUniqueFilename fs folder id now extention = some p ∧
      ∃ j, p = suffixName (folder ++ tmpFilename id now) j ++ extPart extention ∧
        fexists fs (suffixName (folder ++ tmpFilename id now) j) = false ∧
        (∀ k, k < j → fexists fs (suffixName (folder ++ tmpFilename id now) k) = true) ∧
        (extPart extention = "" → fexists fs p = false) := by
  have hsome := nameReserved_isSome fs (extPart extention) (folder ++ tmpFilename id now)
  obtain ⟨p, hp⟩ := Option.isSome_iff_exists.mp hsome
  refine ⟨p, hp, ?_⟩
  obtain ⟨j, _, hpj, hfree, hbusy⟩ :=
    nameReserved_spec fs (extPart extention) (folder ++ tmpFilename id now) _ _ _ hp
  refine ⟨j, hpj, hfree, fun k hk => hbusy k (Nat.zero_le k) hk, ?_⟩
  intro hext
  rw [hpj, hext, String.append_empty]
  exact hfree

/-- C8 (witness): the amended allocation guarantee applied to a concrete
non-empty filesystem. -/
theorem c8_amended_witness :
    ∃ p, FileUtils.getUniqueFilename [("/d/x", [1])] "/d/" 0 0 (some "png") = some p ∧
      ∃ j, p = suffixName ("/d/" ++ tmpFilename 0 0) j ++ extPart (some "png") ∧
        fexists [("/d/x", [1])] (suffixName ("/d/" ++ tmpFilename 0 0) j) = false ∧
        (∀ k, k < j → fexists [("/d/x", [1])] (suffixName ("/d/" ++ tmpFilename 0 0) k)
          = true) ∧
        (extPart (some "png") = "" → fexists [("/d/x", [1])] p = false) :=
  c8_amended [("/d/x", [1])] "/d/" 0 0 (some "png")

/-- C2 (counterexample): two 10-byte chunks against a 15-byte ceiling — the
second arrival aborts with the quota signal and removes the registry entry,
but the first chunk's stored temp file is NOT deleted: it remains on disk,
contrary to the claim that all previously stored chunk files are deleted. -/
theorem c2_counterexample :
    (runArrivals ⟨"/tmp/", 15, fun _ => none⟩ {}
        [⟨"c", "t", 1, List.replicate 10 1, none, none, none, 0⟩,
         ⟨"c", "t", 2, List.replicate 10 2, none, none, none, 0⟩]).2
      = [.busy, .quotaExceeded] ∧
    (runArrivals ⟨"/tmp/", 15, fun _ => none⟩ {}
        [⟨"c", "t", 1, List.replicate 10 1, none, none, none, 0⟩,
         ⟨"c", "t", 2, List.replicate 10 2, none, none, none, 0⟩]).1.fs
      = [("/tmp/tmp-file-0-0", List.replicate 10 1)] ∧
    (runArrivals ⟨"/tmp/", 15, fun _ => none⟩ {}
        [⟨"c", "t", 1, List.replicate 10 1, none, none, none, 0⟩,
         ⟨"c", "t", 2, List.replicate 10 2, none, none, none, 0⟩]).1.registry
      = [] := by decide

/-- C2 (amended): for every chunk arrival that makes the cumulative received
bytes (or the client-declared total size) exceed the ceiling, the operation
returns the quota-exceeded signal (so the transmission does not reach
`Complete` in this operation), the registry entry is removed within the same
operation (with the ClientSession entry removed when now empty) — but the
previously stored chunk temp files are NOT deleted: the filesystem is left
exactly as it was. -/
theorem c2_amended (cfg : Config) (s : GState) (a : Arrival)
    (h : quotaHit cfg a (bumpSize s a) = true) :
    (recieveFile cfg s a).1 = .quotaExceeded ∧
    (recieveFile cfg s a).2.fs = s.fs ∧
    alookup ((alookup (recieveFile cfg s a).2.registry a.clientId).getD []) a.transId
      = none ∧
    ((aerase (aset ((alookup s.registry a.clientId).getD []) a.transId (bumpSize s a))
        a.transId).length = 0 →
      alookup (recieveFile cfg s a).2.registry a.clientId = none) := by
  rw [recieveFile_quota cfg s a h]
  refine ⟨rfl, rfl, ?_, ?_⟩
  · simp only [eraseTransmission]
    by_cases hlen : (aerase (aset ((alookup s.registry a.clientId).getD []) a.transId
        (bumpSize s a)) a.transId).length = 0
    · rw [if_pos hlen]
      rw [alookup_aerase, if_pos rfl]
      simp [alookup]
    · rw [if_neg hlen]
      rw [alookup_aset_self]
      simp only [Option.getD_some]
      rw [alookup_aerase, if_pos rfl]
  · intro hlen
    simp only [eraseTransmission]
    rw [if_pos hlen]
    rw [alookup_aerase, if_pos rfl]

/-- C4 (counterexample): a single over-quota chunk arriving into the empty
state is aborted with nothing persisted: the filesystem stays empty, so the
aborting chunk has NOT been stored or recorded when the quota abort occurs,
contrary to the claim that persistence (step 2) precedes the quota check
(step 5). -/
theorem c4_counterexample :
    (recieveFile ⟨"/tmp/", 2, fun _ => none⟩ {} ⟨"c", "t", 1, [1, 2, 3], none, none, none, 0⟩).1
      = .quotaExceeded ∧
    (recieveFile ⟨"/tmp/", 2, fun _ => none⟩ {} ⟨"c", "t", 1, [1, 2, 3], none, none, none, 0⟩).2.fs
      = [] := by decide

/-- C4 (amended): on every chunk arrival the payload length is added to
`cummulatedSize` before the Quota Enforcer runs (the abort decision sees the
updated total), but the payload is persisted and recorded only after the
quota check passes — so when a quota abort occurs, the aborting chunk has
NOT been stored (the filesystem is unchanged) and the registry entry is
gone. -/
theorem c4_amended (cfg : Config) (s : GState) (a : Arrival) :
    (bumpSize s a).cummulatedSize
      = (match alookup ((alookup s.registry a.clientId).getD []) a.transId with
         | none => 0
         | some tr => tr.cummulatedSize) + a.filedata.length ∧
    ((recieveFile cfg s a).1 = .quotaExceeded ↔ quotaHit cfg a (bumpSize s a) = true) ∧
    ((recieveFile cfg s a).1 = .quotaExceeded → (recieveFile cfg s a).2.fs = s.fs) ∧
    (quotaHit cfg a (bumpSize s a) = false →
      ∀ p, getUniqueFilename s.fs cfg.tmpDir s.nextId a.now = some p →
        alookup (storeAndMark cfg (bumpSize s a) a p).chunks a.partId = some p) := by
  refine ⟨?_, recieveFile_quota_iff cfg s a, ?_, ?_⟩
  · unfold bumpSize
    cases alookup ((alookup s.registry a.clientId).getD []) a.transId <;> simp
  · intro hres
    have hq := (recieveFile_quota_iff cfg s a).mp hres
    rw [recieveFile_quota cfg s a hq]
  · intro _ p _
    unfold storeAndMark
    rcases a.originalFilename with _ | ofn
    · simp [alookup_aset_self]
    · by_cases hofn : ofn = "" <;> simp [hofn, alookup_aset_self]

/-- C7 (counterexample): in the assembler's chunk-appending loop, a failing
read of an intermediate chunk (chunk 2 of 2 is missing here) propagates the
rejection with the output stream still open: the stream is NOT closed on
this exit path, contrary to the claim that the handle is released on every
exit path. -/
theorem c7_counterexample :
    appendFileData ⟨20, some 2, some "a", some [], [(1, "p1"), (2, "p2")]⟩ 2 1
        ⟨"out", false⟩ [("p1", [5])] 2
      = .err ⟨"out", false⟩ [("p1", [5]), ("out", [5])] := by decide

/-- C7 (amended): the output write handle is closed exactly on the success
path of the chunk-appending loop — the one on which every index up to
`partCount` has been appended; when a read of an intermediate chunk fails,
the rejection propagates with the stream exactly as it was, so a
still-open handle is NOT released on the error exit paths. -/
theorem c7_amended (t : Transmission) (partCount : Nat) :
    ∀ fuel part ws fs,
      (∀ ws' fs', appendFileData t partCount part ws fs fuel = .err ws' fs' → ws' = ws) ∧
      (∀ ws' fs', appendFileData t partCount part ws fs fuel = .ok ws' fs' →
        ws' = { ws with closed := true }) := by
  intro fuel
  induction fuel with
  | zero =>
    intro part ws fs
    constructor
    · intro ws' fs' h
      rw [appendFileData] at h
      injection h with h1 _
      exact h1.symm
    · intro ws' fs' h
      rw [appendFileData] at h
      exact absurd h (by simp)
  | succ fuel ih =>
    intro part ws fs
    constructor
    · intro ws' fs' h
      rw [appendFileData] at h
      cases hc : alookup t.chunks part with
      | none => simp only [hc] at h; injection h with h1 _; exact h1.symm
      | some path =>
        simp only [hc] at h
        cases hf : alookup fs path with
        | none => simp only [hf] at h; injection h with h1 _; exact h1.symm
        | some d =>
          simp only [hf] at h
          by_cases hp : part = partCount
          · rw [if_pos hp] at h; exact absurd h (by simp)
          · rw [if_neg hp] at h
            exact (ih (part + 1) ws (wwrite fs ws d)).1 ws' fs' h
    · intro ws' fs' h
      rw [appendFileData] at h
      cases hc : alookup t.chunks part with
      | none => simp only [hc] at h; exact absurd h (by simp)
      | some path =>
        simp only [hc] at h
        cases hf : alookup fs path with
        | none => simp only [hf] at h; exact absurd h (by simp)
        | some d =>
          simp only [hf] at h
          by_cases hp : part = partCount
          · rw [if_pos hp] at h; injection h with h1 _; exact h1.symm
          · rw [if_neg hp] at h
            exact (ih (part + 1) ws (wwrite fs ws d)).2 ws' fs' h

/-- C7 (witness): the amended theorem applied to the concrete failing
assembly of `c7_counterexample` — the error exit leaves the stream exactly
as it was (open). -/
theorem c7_amended_witness : (⟨"out", false⟩ : WStream) = ⟨"out", false⟩ :=
  (c7_amended ⟨20, some 2, some "a", some [], [(1, "p1"), (2, "p2")]⟩ 2 2 1 ⟨"out", false⟩
    [("p1", [5])]).1 ⟨"out", false⟩ [("p1", [5]), ("out", [5])] (by decide)

/-- C9 (counterexample): the two `getFinalFile` copies are not behaviorally
equivalent: on a completed one-chunk transmission with filename `a.png`, the
`file-utils.js` copy creates the output at `/d/tmp-file-0-0.png` while the
`index.js` copy creates it at `/d/tmp-file-0-0` — different results and
different filesystem effects. -/
theorem c9_counterexample :
    FileUtils.getFinalFile [("c1", [7])] "/d/" 0 0
        ⟨7, some 1, some "a.png", some [], [(1, "c1")]⟩
      ≠ getFinalFile [("c1", [7])] "/d/" 0 0
        ⟨7, some 1, some "a.png", some [], [(1, "c1")]⟩ := by decide

/-- C9 (amended): `removeFile` is duplicated verbatim, and
`getUniqueFilename` agrees between the two files when no extension is
supplied; `getFinalFile` agrees exactly whenever the transmission's
`filename` is present and carries no extension — when it has one, the
outputs differ in the output path (the `file-utils.js` copy appends the
extension of `originalFilename` to the output name, the `index.js` copy does
not). -/
theorem c9_amended :
    (∀ fs p, FileUtils.removeFile fs p = removeFile fs p) ∧
    (∀ fs folder id now,
      FileUtils.getUniqueFilename fs folder id now none = getUniqueFilename fs folder id now) ∧
    (∀ fs folder id now t fn, t.filename = some fn → extOf fn = none →
      FileUtils.getFinalFile fs folder id now t = getFinalFile fs folder id now t) := by
  refine ⟨fun fs p => rfl, fun fs folder id now => rfl, ?_⟩
  intro fs folder id now t fn hfn hext
  have h2 : FileUtils.getUniqueFilename fs folder id now none
      = getUniqueFilename fs folder id now := rfl
  simp only [FileUtils.getFinalFile, getFinalFile, hfn, hext, h2]

theorem storeAndMark_chunks (cfg : Config) (tr0 : Transmission) (a : Arrival) (p : String) :
    (storeAndMark cfg tr0 a p).chunks = aset tr0.chunks a.partId p := by
  unfold storeAndMark
  rcases a.originalFilename with _ | ofn
  · rfl
  · by_cases hofn : ofn = "" <;> simp [hofn]

theorem storeAndMark_sync (cfg : Config) (tr0 : Transmission) (a : Arrival) (p : String)
    (h : tr0.Sync) : (storeAndMark cfg tr0 a p).Sync := by
  unfold storeAndMark
  rcases a.originalFilename with _ | ofn
  · exact h
  · by_cases hofn : ofn = ""
    · simpa [hofn] using h
    · simp [hofn, Transmission.Sync]

theorem bumpSize_sync (s : GState) (a : Arrival)
    (hsync : ∀ tr, alookup ((alookup s.registry a.clientId).getD []) a.transId = some tr →
      tr.Sync) : (bumpSize s a).Sync := by
  unfold bumpSize
  cases h : alookup ((alookup s.registry a.clientId).getD []) a.transId with
  | none => simp [Transmission.Sync]
  | some tr => simpa [Transmission.Sync] using hsync tr h

theorem sizeKeys_of_sync (t : Transmission) (h : t.Sync) :
    t.sizeKeys = 1 + (if t.count.isSome then 3 else 0) + t.chunks.length := by
  obtain ⟨h1, h2⟩ := h
  unfold Transmission.sizeKeys
  rw [← h1, ← h2]
  by_cases hc : t.count.isSome <;> simp [hc]

theorem completeCheck_iff (t : Transmission) (hs : t.Sync) (hne : t.chunks.length ≠ 0) :
    completeCheck t = true ↔ ∃ n, t.count = some n ∧ t.chunks.length = n := by
  unfold completeCheck
  rcases hc : t.count with _ | n
  · simp [hc]
  · have hsz := sizeKeys_of_sync t hs
    rw [hc] at hsz
    simp only [Option.isSome_some, if_pos] at hsz
    simp only [hc, Option.getD_some, Bool.and_eq_true, decide_eq_true_eq, hsz]
    constructor
    · rintro ⟨hn0, hlen⟩
      exact ⟨n, rfl, by omega⟩
    · rintro ⟨m, hm, hlen⟩
      injection hm with hm
      subst hm
      constructor
      · omega
      · omega

theorem recieveFile_not_busy (cfg : Config) (s : GState) (a : Arrival) (p : String)
    (hq : quotaHit cfg a (bumpSize s a) = false)
    (halloc : getUniqueFilename s.fs cfg.tmpDir s.nextId a.now = some p)
    (hcc : completeCheck (storeAndMark cfg (bumpSize s a) a p) = true) :
    (recieveFile cfg s a).1 ≠ .busy := by
  simp only [recieveFile, halloc]
  rw [if_neg (by simp [hq]), if_pos hcc]
  split <;> simp

/-- C3: on every chunk arrival that passes the quota check, the Assembler is
invoked if and only if `count` is known and the number of recorded chunk
entries equals it (the `size() === partCount + 4` test over the four
bookkeeping keys); otherwise the incomplete (`BUSY`) signal is returned.
The test mentions only the count, never which chunk arrived last. -/
theorem c3_completion_by_count (cfg : Config) (s : GState) (a : Arrival) (p : String)
    (hq : quotaHit cfg a (bumpSize s a) = false)
    (halloc : getUniqueFilename s.fs cfg.tmpDir s.nextId a.now = some p)
    (hsync : ∀ tr, alookup ((alookup s.registry a.clientId).getD []) a.transId = some tr →
      tr.Sync) :
    (completeCheck (storeAndMark cfg (bumpSize s a) a p) = true ↔
      ∃ n, (storeAndMark cfg (bumpSize s a) a p).count = some n ∧
        (storeAndMark cfg (bumpSize s a) a p).chunks.length = n) ∧
    ((recieveFile cfg s a).1 = .busy ↔
      completeCheck (storeAndMark cfg (bumpSize s a) a p) = false) := by
  have hsync2 := storeAndMark_sync cfg (bumpSize s a) a p (bumpSize_sync s a hsync)
  have hne : (storeAndMark cfg (bumpSize s a) a p).chunks.length ≠ 0 := by
    rw [storeAndMark_chunks]; exact aset_ne_nil _ _ _
  refine ⟨completeCheck_iff _ hsync2 hne, ?_⟩
  by_cases hcc : completeCheck (storeAndMark cfg (bumpSize s a) a p) = true
  · rw [hcc]
    constructor
    · intro hbusy
      exact absurd hbusy (recieveFile_not_busy cfg s a p hq halloc hcc)
    · intro h; simp at h
  · rw [Bool.not_eq_true] at hcc
    rw [recieveFile_busy cfg s a p hq halloc hcc]
    simp [hcc]

/-- C3 (witness): a non-terminal first chunk into the empty state is
incomplete and the call replies `BUSY`. -/
theorem c3_witness :
    (recieveFile ⟨"/tmp/", 1000, fun _ => none⟩ {}
        ⟨"c", "t", 1, [1, 2], none, none, none, 0⟩).1 = .busy :=
  ((c3_completion_by_count ⟨"/tmp/", 1000, fun _ => none⟩ {}
      ⟨"c", "t", 1, [1, 2], none, none, none, 0⟩ "/tmp/tmp-file-0-0"
      (by decide) (by decide) (by intro tr h; simp [alookup] at h)).2).mpr (by decide)

/-- C9 (witness): the amended equivalence applied to a concrete completed
transmission whose filename has no extension. -/
theorem c9_amended_witness :
    FileUtils.getFinalFile [("c1", [7])] "/d/" 0 0
        ⟨7, some 1, some "nodot", some [], [(1, "c1")]⟩
      = getFinalFile [("c1", [7])] "/d/" 0 0
        ⟨7, some 1, some "nodot", some [], [(1, "c1")]⟩ :=
  c9_amended.2.2 [("c1", [7])] "/d/" 0 0 ⟨7, some 1, some "nodot", some [], [(1, "c1")]⟩
    "nodot" rfl (by decide)

theorem appendFileData_data_irrel (t : Transmission) (d : Option (List (String × String)))
    (partCount : Nat) : ∀ fuel part ws fs,
    appendFileData { t with data := d } partCount part ws fs fuel
      = appendFileData t partCount part ws fs fuel := by
  intro fuel
  induction fuel with
  | zero => intro part ws fs; rfl
  | succ fuel ih =>
    intro part ws fs
    simp only [appendFileData]
    cases h : alookup t.chunks part with
    | none => simp [h]
    | some path =>
      simp only [h]
      cases hf : alookup fs path with
      | none => simp [hf]
      | some dd =>
        simp only [hf]
        by_cases hp : part = partCount
        · simp [hp, removeChunkFiles]
        · simp [hp, ih]

theorem getFinalFile_data_irrel (fs : FS) (folder : String) (id now : Nat)
    (t : Transmission) (d : Option (List (String × String))) :
    getFinalFile fs folder id now { t with data := d } = getFinalFile fs folder id now t := by
  simp only [getFinalFile, appendFileData_data_irrel]

theorem quotaHit_max_congr (cfg cfg' : Config) (a : Arrival) (t : Transmission)
    (h : cfg'.maxFileSize = cfg.maxFileSize) : quotaHit cfg' a t = quotaHit cfg a t := by
  unfold quotaHit; rw [h]

theorem storeAndMark_eq_up_to_data (cfg cfg' : Config) (tr0 : Transmission) (a : Arrival)
    (p : String) :
    storeAndMark cfg' tr0 a p
      = { storeAndMark cfg tr0 a p with data := (storeAndMark cfg' tr0 a p).data } := by
  unfold storeAndMark
  rcases a.originalFilename with _ | ofn
  · rfl
  · by_cases hofn : ofn = "" <;> simp [hofn]

theorem storeAndMark_data_isSome (cfg cfg' : Config) (tr0 : Transmission) (a : Arrival)
    (p : String) :
    (storeAndMark cfg' tr0 a p).data.isSome = (storeAndMark cfg tr0 a p).data.isSome := by
  unfold storeAndMark
  rcases a.originalFilename with _ | ofn
  · rfl
  · by_cases hofn : ofn = "" <;> simp [hofn]

theorem completeCheck_data_irrel (t : Transmission) (d : Option (List (String × String)))
    (h : d.isSome = t.data.isSome) :
    completeCheck { t with data := d } = completeCheck t := by
  unfold completeCheck Transmission.sizeKeys
  simp [h]

theorem recieveFile_assemble_err (cfg : Config) (s : GState) (a : Arrival) (p : String)
    (fs2 : FS)
    (hq : quotaHit cfg a (bumpSize s a) = false)
    (halloc : getUniqueFilename s.fs cfg.tmpDir s.nextId a.now = some p)
    (hcc : completeCheck (storeAndMark cfg (bumpSize s a) a p) = true)
    (hfin : getFinalFile (aset s.fs p a.filedata) cfg.tmpDir (s.nextId + 1) a.now
      (storeAndMark cfg (bumpSize s a) a p) = (none, fs2)) :
    recieveFile cfg s a = (.ioError,
      { registry := aset s.registry a.clientId
          (aset ((alookup s.registry a.clientId).getD []) a.transId
            (storeAndMark cfg (bumpSize s a) a p)),
        fs := fs2, nextId := s.nextId + 2 }) := by
  simp only [recieveFile, halloc, hfin]
  rw [if_neg (by simp [hq]), if_pos hcc]

/-- C6: when the terminal chunk's `x-data` header fails to parse, the
transmission's metadata defaults to the empty mapping, the chunk itself is
not rejected (`count` and `filename` are still set from it), and the call's
outcome is exactly what it would have been under a parser that succeeds —
in particular the failure does not prevent the transmission from reaching
completion. -/
theorem c6_metadata_default (cfg cfg' : Config) (s : GState) (a : Arrival)
    (hdir : cfg'.tmpDir = cfg.tmpDir) (hmax : cfg'.maxFileSize = cfg.maxFileSize)
    (ofn : String) (hofn : a.originalFilename = some ofn) (hne : ofn ≠ "")
    (ds : String) (hds : a.xdata = some ds) (hdsne : ds ≠ "")
    (hfail : cfg.jsonParse ds = none) :
    (∀ p, (storeAndMark cfg (bumpSize s a) a p).data = some [] ∧
      (storeAndMark cfg (bumpSize s a) a p).count = some a.partId ∧
      (storeAndMark cfg (bumpSize s a) a p).filename = some ofn) ∧
    (recieveFile cfg s a).1 = (recieveFile cfg' s a).1 := by
  constructor
  · intro p
    unfold storeAndMark
    rw [hofn]
    simp [hne, hds, hdsne, hfail]
  · by_cases hq : quotaHit cfg a (bumpSize s a) = true
    · have hq' : quotaHit cfg' a (bumpSize s a) = true := by
        rw [quotaHit_max_congr cfg cfg' a _ hmax]; exact hq
      rw [recieveFile_quota cfg s a hq, recieveFile_quota cfg' s a hq']
    · rw [Bool.not_eq_true] at hq
      have hq' : quotaHit cfg' a (bumpSize s a) = false := by
        rw [quotaHit_max_congr cfg cfg' a _ hmax]; exact hq
      obtain ⟨p, halloc⟩ := Option.isSome_iff_exists.mp
        (getUniqueFilename_isSome s.fs cfg.tmpDir s.nextId a.now)
      have halloc' : getUniqueFilename s.fs cfg'.tmpDir s.nextId a.now = some p := by
        rw [hdir]; exact halloc
      have heq := storeAndMark_eq_up_to_data cfg cfg' (bumpSize s a) a p
      have hiso := storeAndMark_data_isSome cfg cfg' (bumpSize s a) a p
      have hcc2 : completeCheck (storeAndMark cfg' (bumpSize s a) a p)
          = completeCheck (storeAndMark cfg (bumpSize s a) a p) := by
        rw [heq]
        exact completeCheck_data_irrel _ _ hiso
      by_cases hcc : completeCheck (storeAndMark cfg (bumpSize s a) a p) = true
      · rcases hgf : getFinalFile (aset s.fs p a.filedata) cfg.tmpDir (s.nextId + 1) a.now
            (storeAndMark cfg (bumpSize s a) a p) with ⟨ofd, fs2⟩
        have hgf' : getFinalFile (aset s.fs p a.filedata) cfg'.tmpDir (s.nextId + 1) a.now
            (storeAndMark cfg' (bumpSize s a) a p) = (ofd, fs2) := by
          rw [hdir, heq, getFinalFile_data_irrel]
          exact hgf
        cases ofd with
        | none =>
          rw [recieveFile_assemble_err cfg s a p fs2 hq halloc hcc hgf,
            recieveFile_assemble_err cfg' s a p fs2 hq' halloc' (by rw [hcc2]; exact hcc) hgf']
        | some fd =>
          rw [recieveFile_assembled cfg s a p fd fs2 hq halloc hcc hgf,
            recieveFile_assembled cfg' s a p fd fs2 hq' halloc' (by rw [hcc2]; exact hcc) hgf']
      · rw [Bool.not_eq_true] at hcc
        rw [recieveFile_busy cfg s a p hq halloc hcc,
          recieveFile_busy cfg' s a p hq' halloc' (by rw [hcc2]; exact hcc)]

theorem alookup_isSome_iff {κ α : Type} [DecidableEq κ] (l : List (κ × α)) (k : κ) :
    (alookup l k).isSome = true ↔ k ∈ akeys l := by
  induction l with
  | nil => simp [alookup, akeys]
  | cons hd tl ih =>
    obtain ⟨q, c⟩ := hd
    by_cases h : q = k
    · subst h; simp [alookup, akeys]
    · have heq : alookup ((q, c) :: tl) k = alookup tl k := by simp [alookup, h]
      rw [heq]
      show (alookup tl k).isSome = true ↔ k ∈ q :: akeys tl
      rw [ih]
      constructor
      · exact fun hm => List.mem_cons_of_mem _ hm
      · intro hm
        rcases List.mem_cons.mp hm with h1 | h1
        · exact absurd h1.symm h
        · exact h1

theorem alookup_eq_none_iff {κ α : Type} [DecidableEq κ] (l : List (κ × α)) (k : κ) :
    alookup l k = none ↔ k ∉ akeys l := by
  rw [← alookup_isSome_iff]
  cases alookup l k <;> simp

theorem aset_eq_append {κ α : Type} [DecidableEq κ] (l : List (κ × α)) (k : κ) (v : α)
    (h : alookup l k = none) : aset l k v = l ++ [(k, v)] := by
  induction l with
  | nil => simp [aset]
  | cons hd tl ih =>
    obtain ⟨q, c⟩ := hd
    by_cases hq : q = k
    · simp [alookup, hq] at h
    · simp [alookup, hq] at h
      simp [aset, hq, ih h]

theorem akeys_append {κ α : Type} (l1 l2 : List (κ × α)) :
    akeys (l1 ++ l2) = akeys l1 ++ akeys l2 := by
  simp [akeys]

theorem alookup_append_left {κ α : Type} [DecidableEq κ] (l1 l2 : List (κ × α)) (k : κ)
    (v : α) (h : alookup l1 k = some v) : alookup (l1 ++ l2) k = some v := by
  induction l1 with
  | nil => simp [alookup] at h
  | cons hd tl ih =>
    obtain ⟨q, c⟩ := hd
    by_cases hq : q = k
    · simp [alookup, hq] at h ⊢; exact h
    · simp [alookup, hq] at h ⊢; exact ih h

theorem alookup_append_right {κ α : Type} [DecidableEq κ] (l1 l2 : List (κ × α)) (k : κ)
    (h : alookup l1 k = none) : alookup (l1 ++ l2) k = alookup l2 k := by
  induction l1 with
  | nil => simp [alookup]
  | cons hd tl ih =>
    obtain ⟨q, c⟩ := hd
    by_cases hq : q = k
    · simp [alookup, hq] at h
    · simp [alookup, hq] at h ⊢; exact ih h

theorem aset_append_last {κ α : Type} [DecidableEq κ] (l : List (κ × α)) (k : κ) (v w : α)
    (h : alookup l k = none) : aset (l ++ [(k, v)]) k w = l ++ [(k, w)] := by
  induction l with
  | nil => simp [aset]
  | cons hd tl ih =>
    obtain ⟨q, c⟩ := hd
    by_cases hq : q = k
    · simp [alookup, hq] at h
    · simp [alookup, hq] at h
      simp [aset, hq, ih h]

theorem akeys_zip {κ β : Type} (dl : List κ) (pl : List β) (h : dl.length ≤ pl.length) :
    akeys (dl.zip pl) = dl := by
  unfold akeys
  exact List.map_fst_zip dl pl h

theorem removeChunkFiles_eq (fs : FS) (t : Transmission) :
    removeChunkFiles fs t = List.foldl removeFile fs (t.chunks.map Prod.snd) := by
  unfold removeChunkFiles
  rw [List.foldl_map]

theorem removeFile_foldl_zip : ∀ (pl : List String) (bl : List Bytes) (rest : FS),
    pl.length = bl.length → pl.Nodup → (∀ p ∈ pl, p ∉ akeys rest) →
    List.foldl removeFile (pl.zip bl ++ rest) pl = rest := by
  intro pl
  induction pl with
  | nil => intro bl rest _ _ _; simp
  | cons p pl' ih =>
    intro bl rest hlen hnd hdisj
    cases bl with
    | nil => simp at hlen
    | cons b bl' =>
      have hp' : p ∉ pl' := (List.nodup_cons.mp hnd).1
      have hnone : alookup (pl'.zip bl' ++ rest) p = none := by
        rw [alookup_eq_none_iff, akeys_append]
        intro hmem
        rcases List.mem_append.mp hmem with hm | hm
        · rw [akeys_zip pl' bl' (by simp at hlen; omega)] at hm
          exact hp' hm
        · exact hdisj p (by simp) hm
      have hstep : removeFile ((p, b) :: (pl'.zip bl' ++ rest)) p = pl'.zip bl' ++ rest := by
        unfold removeFile
        rw [if_pos (by simp [fexists, alookup])]
        exact aerase_cons_self _ _ _ hnone
      have : (p :: pl').zip (b :: bl') ++ rest = (p, b) :: (pl'.zip bl' ++ rest) := by simp
      rw [this, List.foldl_cons, hstep]
      exact ih bl' rest (by simpa using hlen) (List.nodup_cons.mp hnd).2
        (fun q hq => hdisj q (by simp [hq]))

theorem zip_lookup_aligned (payload : Nat → Bytes) :
    ∀ (dl : List Nat) (pl : List String), dl.length = pl.length → dl.Nodup → pl.Nodup →
    ∀ k ∈ dl, ∃ p', p' ∈ pl ∧ alookup (dl.zip pl) k = some p' ∧
      alookup (pl.zip (dl.map payload)) p' = some (payload k) := by
  intro dl
  induction dl with
  | nil => intro pl _ _ _ k hk; simp at hk
  | cons d dl' ih =>
    intro pl hlen hdnd hpnd k hk
    cases pl with
    | nil => simp at hlen
    | cons p pl' =>
      rcases List.mem_cons.mp hk with hkd | hk'
      · subst hkd
        exact ⟨p, by simp, by simp [alookup], by simp [alookup]⟩
      · obtain ⟨p', hp'mem, hchunk, hfs⟩ := ih pl' (by simpa using hlen)
          (List.nodup_cons.mp hdnd).2 (List.nodup_cons.mp hpnd).2 k hk'
        have hdk : d ≠ k := fun h => (List.nodup_cons.mp hdnd).1 (h ▸ hk')
        have hpp' : p ≠ p' := fun h => (List.nodup_cons.mp hpnd).1 (h ▸ hp'mem)
        refine ⟨p', by simp [hp'mem], ?_, ?_⟩
        · simpa [alookup, hdk] using hchunk
        · simpa [alookup, hpp'] using hfs

theorem sum_map_le_of_perm_append (f : Nat → Nat) (done : List Nat) (i : Nat)
    (rest' : List Nat) (full : List Nat)
    (hperm : List.Perm (done ++ i :: rest') full) :
    ((done ++ [i]).map f).sum ≤ (full.map f).sum := by
  have hsub : List.Sublist (done ++ [i]) (done ++ i :: rest') :=
    List.Sublist.append_left ((List.cons_sublist_cons).mpr (List.nil_sublist rest')) done
  have h1 : ((done ++ [i]).map f).sum ≤ ((done ++ i :: rest').map f).sum :=
    (hsub.map f).sum_le_sum (fun a _ => Nat.zero_le a)
  have h2 : ((done ++ i :: rest').map f).sum = (full.map f).sum := (hperm.map f).sum_eq
  omega

theorem appendFileData_ok_run (payload : Nat → Bytes) (t2 : Transmission) (N : Nat)
    (out : String) :
    ∀ (fuel part : Nat) (fsAcc : FS) (cur : Bytes),
    fuel = N + 1 - part → 1 ≤ part → part ≤ N →
    (∀ k, part ≤ k → k ≤ N → ∃ p', alookup t2.chunks k = some p' ∧
      alookup fsAcc p' = some (payload k) ∧ p' ≠ out) →
    alookup fsAcc out = some cur →
    appendFileData t2 N part ⟨out, false⟩ fsAcc fuel =
      .ok ⟨out, true⟩ (removeChunkFiles
        (aset fsAcc out (cur ++ ((List.range' part (N + 1 - part)).map payload).flatten))
        t2) := by
  intro fuel
  induction fuel with
  | zero => intro part fsAcc cur hfuel h1 h2 _ _; omega
  | succ fuel ih =>
    intro part fsAcc cur hfuel h1 h2 hlook hout
    obtain ⟨p', hchunk, hfs, hne⟩ := hlook part (le_refl part) h2
    rw [appendFileData]
    simp only [hchunk, hfs]
    have hw : wwrite fsAcc ⟨out, false⟩ (payload part)
        = aset fsAcc out (cur ++ payload part) := by
      unfold wwrite
      simp [hout]
    by_cases hp : part = N
    · rw [if_pos hp]
      subst hp
      have hr : List.range' part (part + 1 - part) = [part] := by
        have : part + 1 - part = 1 := by omega
        rw [this]
        simp
      rw [hw, hr]
      simp
    · rw [if_neg hp, hw]
      have hrec := ih (part + 1) (aset fsAcc out (cur ++ payload part)) (cur ++ payload part)
        (by omega) (by omega) (by omega)
        (fun k hk1 hk2 => by
          obtain ⟨q, hcq, hfq, hnq⟩ := hlook k (by omega) hk2
          exact ⟨q, hcq, by rw [alookup_aset_ne _ _ _ _ (fun h => hnq h.symm)]; exact hfq, hnq⟩)
        (alookup_aset_self _ _ _)
      rw [hrec, aset_aset_same]
      have hr : List.range' part (N + 1 - part)
          = part :: List.range' (part + 1) (N - part) := by
        have h3 : N + 1 - part = (N - part) + 1 := by omega
        rw [h3, List.range'_succ]
      rw [hr]
      simp

theorem getFinalFile_run (payload : Nat → Bytes) (fname : String) (N : Nat) (hN : 1 ≤ N)
    (dl : List Nat) (pl : List String) (folder : String) (id now sz : Nat)
    (hlen : dl.length = pl.length) (hdnd : dl.Nodup) (hpnd : pl.Nodup)
    (hmem : ∀ k, k ∈ dl ↔ k ∈ List.range' 1 N) :
    ∃ out, out ∉ pl ∧
      getFinalFile (pl.zip (dl.map payload)) folder id now
        ⟨sz, some N, some fname, some [], dl.zip pl⟩
      = (some ⟨some fname, out⟩, [(out, ((List.range' 1 N).map payload).flatten)]) := by
  obtain ⟨out, hout⟩ := Option.isSome_iff_exists.mp
    (getUniqueFilename_isSome (pl.zip (dl.map payload)) folder id now)
  have hfresh : fexists (pl.zip (dl.map payload)) out = false :=
    getUniqueFilename_fresh _ _ _ _ _ hout
  have houtpl : out ∉ pl := by
    intro hmem2
    have : out ∈ akeys (pl.zip (dl.map payload)) := by
      rw [akeys_zip pl (dl.map payload) (by simp [hlen])]
      exact hmem2
    rw [← fexists_iff_mem_akeys] at this
    rw [hfresh] at this
    simp at this
  refine ⟨out, houtpl, ?_⟩
  have hnone : alookup (pl.zip (dl.map payload)) out = none := by
    unfold fexists at hfresh
    cases h : alookup (pl.zip (dl.map payload)) out
    · rfl
    · rw [h] at hfresh; simp at hfresh
  have hfs0 : aset (pl.zip (dl.map payload)) out []
      = pl.zip (dl.map payload) ++ [(out, [])] := aset_eq_append _ _ _ hnone
  have hlook : ∀ k, 1 ≤ k → k ≤ N →
      ∃ p', alookup (dl.zip pl) k = some p' ∧
        alookup (pl.zip (dl.map payload) ++ [(out, [])]) p' = some (payload k) ∧
        p' ≠ out := by
    intro k hk1 hk2
    have hkdl : k ∈ dl := (hmem k).mpr (by rw [List.mem_range'_1]; omega)
    obtain ⟨p', hp'mem, hchunk, hfs⟩ :=
      zip_lookup_aligned payload dl pl hlen hdnd hpnd k hkdl
    exact ⟨p', hchunk, alookup_append_left _ _ _ _ hfs,
      fun h => houtpl (h ▸ hp'mem)⟩
  have hout0 : alookup (pl.zip (dl.map payload) ++ [(out, [])]) out = some [] := by
    rw [alookup_append_right _ _ _ hnone]
    simp [alookup]
  have happ := appendFileData_ok_run payload ⟨sz, some N, some fname, some [], dl.zip pl⟩
    N out N 1 (pl.zip (dl.map payload) ++ [(out, [])]) [] (by omega) (le_refl 1) hN
    hlook hout0
  unfold getFinalFile
  rw [hout]
  simp only [createWriteStream, hfs0]
  simp only [Option.getD_some] at happ ⊢
  simp only [happ]
  have haset : aset (pl.zip (dl.map payload) ++ [(out, [])]) out
      ([] ++ ((List.range' 1 (N + 1 - 1)).map payload).flatten)
      = pl.zip (dl.map payload)
        ++ [(out, ((List.range' 1 N).map payload).flatten)] := by
    rw [aset_append_last _ _ _ _ hnone]
    have : N + 1 - 1 = N := by omega
    rw [this]
    simp
  rw [haset]
  have hclear : removeChunkFiles
      (pl.zip (dl.map payload) ++ [(out, ((List.range' 1 N).map payload).flatten)])
      ⟨sz, some N, some fname, some [], dl.zip pl⟩
      = [(out, ((List.range' 1 N).map payload).flatten)] := by
    rw [removeChunkFiles_eq]
    have hsnd : (dl.zip pl).map Prod.snd = pl := List.map_snd_zip dl pl (by omega)
    show List.foldl removeFile _ ((dl.zip pl).map Prod.snd) = _
    rw [hsnd]
    exact removeFile_foldl_zip pl (dl.map payload) _ (by simp [hlen]) hpnd
      (fun q hq => by
        simp [akeys]
        intro hcontra
        exact houtpl (hcontra ▸ hq))
  rw [hclear]

theorem mkArrival_clientId (c t : String) (N : Nat) (payload : Nat → Bytes) (fname : String)
    (i : Nat) : (mkArrival c t N payload fname i).clientId = c := rfl

theorem mkArrival_transId (c t : String) (N : Nat) (payload : Nat → Bytes) (fname : String)
    (i : Nat) : (mkArrival c t N payload fname i).transId = t := rfl

theorem mkArrival_filedata (c t : String) (N : Nat) (payload : Nat → Bytes) (fname : String)
    (i : Nat) : (mkArrival c t N payload fname i).filedata = payload i := rfl

theorem c1_step_core (cfg : Config) (c t : String) (N : Nat) (payload : Nat → Bytes)
    (fname : String) (hfname : fname ≠ "")
    (done : List Nat) (ps : List String) (s : GState) (i : Nat)
    (hlen : ps.length = done.length) (hi : i ∉ done)
    (hfs : s.fs = ps.zip (done.map payload))
    (hreg : s.registry = if done = [] then []
      else [(c, [(t, trOf N payload fname done ps)])])
    (hquota : ((done ++ [i]).map (fun j => (payload j).length)).sum ≤ cfg.maxFileSize) :
    ∃ p, p ∉ ps ∧
      getUniqueFilename s.fs cfg.tmpDir s.nextId 0 = some p ∧
      quotaHit cfg (mkArrival c t N payload fname i)
        (bumpSize s (mkArrival c t N payload fname i)) = false ∧
      storeAndMark cfg (bumpSize s (mkArrival c t N payload fname i))
          (mkArrival c t N payload fname i) p
        = trOf N payload fname (done ++ [i]) (ps ++ [p]) ∧
      aset ((alookup s.registry c).getD []) t
          (storeAndMark cfg (bumpSize s (mkArrival c t N payload fname i))
            (mkArrival c t N payload fname i) p)
        = [(t, trOf N payload fname (done ++ [i]) (ps ++ [p]))] ∧
      aset s.registry c
          (aset ((alookup s.registry c).getD []) t
            (storeAndMark cfg (bumpSize s (mkArrival c t N payload fname i))
              (mkArrival c t N payload fname i) p))
        = [(c, [(t, trOf N payload fname (done ++ [i]) (ps ++ [p]))])] ∧
      aset s.fs p (payload i) = (ps ++ [p]).zip ((done ++ [i]).map payload) := by
  obtain ⟨p, hp⟩ := Option.isSome_iff_exists.mp
    (getUniqueFilename_isSome s.fs cfg.tmpDir s.nextId 0)
  have hfresh := getUniqueFilename_fresh s.fs cfg.tmpDir s.nextId 0 p hp
  have hnone : alookup s.fs p = none := by
    unfold fexists at hfresh
    cases h : alookup s.fs p
    · rfl
    · rw [h] at hfresh; simp at hfresh
  have hpps : p ∉ ps := by
    intro hmem
    have : p ∈ akeys s.fs := by
      rw [hfs, akeys_zip ps (done.map payload) (by simp [hlen])]
      exact hmem
    rw [← alookup_isSome_iff] at this
    rw [hnone] at this
    simp at this
  have hbump : bumpSize s (mkArrival c t N payload fname i)
      = { cummulatedSize := ((done ++ [i]).map (fun j => (payload j).length)).sum,
          count := if N ∈ done then some N else none,
          filename := if N ∈ done then some fname else none,
          data := if N ∈ done then some [] else none,
          chunks := done.zip ps } := by
    unfold bumpSize mkArrival
    by_cases hd : done = []
    · subst hd
      rw [hreg]
      simp [alookup]
    · rw [hreg, if_neg hd]
      simp [alookup, trOf]
  have hq : quotaHit cfg (mkArrival c t N payload fname i)
      (bumpSize s (mkArrival c t N payload fname i)) = false := by
    rw [hbump]
    unfold quotaHit mkArrival
    simp at hquota
    simp
    omega
  have hchunks : aset (done.zip ps) i p = (done ++ [i]).zip (ps ++ [p]) := by
    rw [aset_eq_append]
    · rw [List.zip_append (by omega)]
      simp
    · rw [alookup_eq_none_iff, akeys_zip done ps (by omega)]
      exact hi
  have hstore : storeAndMark cfg (bumpSize s (mkArrival c t N payload fname i))
      (mkArrival c t N payload fname i) p
      = trOf N payload fname (done ++ [i]) (ps ++ [p]) := by
    rw [hbump]
    unfold storeAndMark mkArrival trOf
    by_cases hiN : i = N
    · subst hiN
      have hNmem : i ∈ done ++ [i] := by simp
      simp [hfname, hNmem, hchunks]
    · have hNe : N ≠ i := fun h => hiN h.symm
      have hNmem : (N ∈ done ++ [i]) ↔ (N ∈ done) := by
        simp [List.mem_append, hNe]
      simp only [if_neg hiN]
      by_cases hNd : N ∈ done <;>
        simp [hNd, hNmem, hchunks]
  have hclient : aset ((alookup s.registry c).getD []) t
      (storeAndMark cfg (bumpSize s (mkArrival c t N payload fname i))
        (mkArrival c t N payload fname i) p)
      = [(t, trOf N payload fname (done ++ [i]) (ps ++ [p]))] := by
    rw [hstore]
    by_cases hd : done = []
    · rw [hreg, if_pos hd]
      simp [alookup, aset]
    · rw [hreg, if_neg hd]
      simp [alookup, aset]
  have hreg2 : aset s.registry c
      (aset ((alookup s.registry c).getD []) t
        (storeAndMark cfg (bumpSize s (mkArrival c t N payload fname i))
          (mkArrival c t N payload fname i) p))
      = [(c, [(t, trOf N payload fname (done ++ [i]) (ps ++ [p]))])] := by
    rw [hclient]
    by_cases hd : done = []
    · rw [hreg, if_pos hd]
      simp [aset]
    · rw [hreg, if_neg hd]
      simp [aset]
  have hfs1 : aset s.fs p (payload i) = (ps ++ [p]).zip ((done ++ [i]).map payload) := by
    rw [hfs, aset_eq_append _ _ _ (by rw [← hfs]; exact hnone)]
    rw [List.map_append, List.zip_append (by simp [hlen])]
    simp
  exact ⟨p, hpps, hp, hq, hstore, hclient, hreg2, hfs1⟩

theorem c1_step_busy (cfg : Config) (c t : String) (N : Nat) (payload : Nat → Bytes)
    (fname : String) (hfname : fname ≠ "")
    (done : List Nat) (ps : List String) (s : GState) (i : Nat)
    (hlen : ps.length = done.length) (hi : i ∉ done)
    (hfs : s.fs = ps.zip (done.map payload))
    (hreg : s.registry = if done = [] then []
      else [(c, [(t, trOf N payload fname done ps)])])
    (hquota : ((done ++ [i]).map (fun j => (payload j).length)).sum ≤ cfg.maxFileSize)
    (hnotfull : done.length + 1 ≠ N) :
    ∃ p, p ∉ ps ∧
      recieveFile cfg s (mkArrival c t N payload fname i) = (.busy,
        { registry := [(c, [(t, trOf N payload fname (done ++ [i]) (ps ++ [p]))])],
          fs := (ps ++ [p]).zip ((done ++ [i]).map payload),
          nextId := s.nextId + 1 }) := by
  obtain ⟨p, hpps, halloc, hq, hstore, _, hreg2, hfs1⟩ :=
    c1_step_core cfg c t N payload fname hfname done ps s i hlen hi hfs hreg hquota
  refine ⟨p, hpps, ?_⟩
  have hziplen : ((done ++ [i]).zip (ps ++ [p])).length = done.length + 1 := by
    rw [List.length_zip]
    simp [hlen]
  have hcc : completeCheck (storeAndMark cfg (bumpSize s (mkArrival c t N payload fname i))
      (mkArrival c t N payload fname i) p) = false := by
    rw [hstore]
    unfold completeCheck trOf Transmission.sizeKeys
    by_cases hN : N ∈ done ++ [i]
    · simp [hN, hziplen]
      omega
    · simp [hN]
  rw [recieveFile_busy cfg s (mkArrival c t N payload fname i) p hq halloc hcc]
  simp only [mkArrival_clientId, mkArrival_transId, mkArrival_filedata]
  rw [hreg2, hfs1]

theorem c1_step_complete (cfg : Config) (c t : String) (N : Nat) (payload : Nat → Bytes)
    (fname : String) (hfname : fname ≠ "") (hN : 1 ≤ N)
    (done : List Nat) (ps : List String) (s : GState) (i : Nat)
    (hlen : ps.length = done.length) (hpnd : ps.Nodup) (hi : i ∉ done)
    (hdnd : (done ++ [i]).Nodup)
    (hfs : s.fs = ps.zip (done.map payload))
    (hreg : s.registry = if done = [] then []
      else [(c, [(t, trOf N payload fname done ps)])])
    (hquota : ((done ++ [i]).map (fun j => (payload j).length)).sum ≤ cfg.maxFileSize)
    (hperm : List.Perm (done ++ [i]) (List.range' 1 N)) :
    ∃ out,
      recieveFile cfg s (mkArrival c t N payload fname i) =
        (.complete out (some fname) (((List.range' 1 N).map payload).flatten),
          { registry := [], fs := [], nextId := s.nextId + 2 }) := by
  obtain ⟨p, hpps, halloc, hq, hstore, hclient, hreg2, hfs1⟩ :=
    c1_step_core cfg c t N payload fname hfname done ps s i hlen hi hfs hreg hquota
  have hNmem : N ∈ done ++ [i] := hperm.mem_iff.mpr (by rw [List.mem_range'_1]; omega)
  have hlenN : (done ++ [i]).length = N := by
    have := hperm.length_eq
    simpa using this
  have hziplen : ((done ++ [i]).zip (ps ++ [p])).length = done.length + 1 := by
    rw [List.length_zip]
    simp [hlen]
  have hcc : completeCheck (trOf N payload fname (done ++ [i]) (ps ++ [p])) = true := by
    unfold completeCheck trOf Transmission.sizeKeys
    simp [hNmem, hziplen]
    constructor
    · omega
    · simp at hlenN
      omega
  have hpsnd : (ps ++ [p]).Nodup := by
    simp [List.nodup_append, hpnd, hpps]
  obtain ⟨out, houtmem, hgff⟩ := getFinalFile_run payload fname N hN (done ++ [i]) (ps ++ [p])
    cfg.tmpDir (s.nextId + 1) 0 ((( done ++ [i]).map (fun j => (payload j).length)).sum)
    (by simp [hlen]) ((hperm.nodup_iff).mpr (List.nodup_range' 1 N 1 (by omega)))
    hpsnd (fun k => hperm.mem_iff)
  have htr : trOf N payload fname (done ++ [i]) (ps ++ [p])
      = ⟨((done ++ [i]).map (fun j => (payload j).length)).sum, some N, some fname, some [],
          (done ++ [i]).zip (ps ++ [p])⟩ := by
    unfold trOf
    simp [hNmem]
  have hgf2 : getFinalFile (aset s.fs p (payload i)) cfg.tmpDir (s.nextId + 1) 0
      (storeAndMark cfg (bumpSize s (mkArrival c t N payload fname i))
        (mkArrival c t N payload fname i) p)
      = (some ⟨some fname, out⟩,
          [(out, ((List.range' 1 N).map payload).flatten)]) := by
    rw [hfs1, hstore, htr]
    exact hgff
  refine ⟨out, ?_⟩
  rw [recieveFile_assembled cfg s (mkArrival c t N payload fname i) p ⟨some fname, out⟩
    [(out, ((List.range' 1 N).map payload).flatten)] hq halloc
    (by rw [hstore]; exact hcc) hgf2]
  simp only [mkArrival_clientId, mkArrival_transId]
  rw [hreg2, hclient]
  unfold eraseTransmission removeFile
  simp [alookup, aerase, fexists]

theorem c1_run (cfg : Config) (c t : String) (N : Nat) (payload : Nat → Bytes)
    (fname : String) (hfname : fname ≠ "") (hN : 1 ≤ N)
    (hquota : ((List.range' 1 N).map (fun j => (payload j).length)).sum ≤ cfg.maxFileSize) :
    ∀ (rest done : List Nat) (ps : List String) (s : GState),
    rest ≠ [] →
    List.Perm (done ++ rest) (List.range' 1 N) →
    ps.length = done.length → ps.Nodup →
    s.fs = ps.zip (done.map payload) →
    s.registry = (if done = [] then [] else [(c, [(t, trOf N payload fname done ps)])]) →
    ∃ out,
      (runArrivals cfg s (rest.map (mkArrival c t N payload fname))).1.registry = [] ∧
      (runArrivals cfg s (rest.map (mkArrival c t N payload fname))).1.fs = [] ∧
      (runArrivals cfg s (rest.map (mkArrival c t N payload fname))).2
        = List.replicate (rest.length - 1) .busy
          ++ [.complete out (some fname) (((List.range' 1 N).map payload).flatten)] := by
  intro rest
  induction rest with
  | nil => intro done ps s hne; exact absurd rfl hne
  | cons i rest' ih =>
    intro done ps s _ hperm hlen hpnd hfs hreg
    have hnd : (done ++ i :: rest').Nodup :=
      (hperm.nodup_iff).mpr (List.nodup_range' _ _ _ (by omega))
    have hi : i ∉ done := by
      intro hmem
      rw [List.nodup_append] at hnd
      exact hnd.2.2 hmem (by simp)
    have hq : ((done ++ [i]).map (fun j => (payload j).length)).sum ≤ cfg.maxFileSize :=
      le_trans (sum_map_le_of_perm_append _ done i rest' _ hperm) hquota
    cases rest' with
    | nil =>
      have hdnd : (done ++ [i]).Nodup := hnd
      obtain ⟨out, hstep⟩ := c1_step_complete cfg c t N payload fname hfname hN done ps s i
        hlen hpnd hi hdnd hfs hreg hq hperm
      refine ⟨out, ?_⟩
      simp only [List.map_cons, List.map_nil, runArrivals]
      rw [hstep]
      simp [runArrivals]
    | cons i2 rest'' =>
      have hnotfull : done.length + 1 ≠ N := by
        have hlenperm := hperm.length_eq
        simp at hlenperm
        omega
      obtain ⟨p, hpps, hstep⟩ := c1_step_busy cfg c t N payload fname hfname done ps s i
        hlen hi hfs hreg hq hnotfull
      have hperm' : List.Perm ((done ++ [i]) ++ (i2 :: rest'')) (List.range' 1 N) := by
        simpa using hperm
      obtain ⟨out, h1, h2, h3⟩ := ih (done ++ [i]) (ps ++ [p])
        { registry := [(c, [(t, trOf N payload fname (done ++ [i]) (ps ++ [p]))])],
          fs := (ps ++ [p]).zip ((done ++ [i]).map payload),
          nextId := s.nextId + 1 }
        (by simp) hperm' (by simp [hlen]) (by simp [List.nodup_append, hpnd, hpps])
        rfl (by rw [if_neg (by simp)])
      refine ⟨out, ?_, ?_, ?_⟩
      · simp only [List.map_cons, runArrivals]
        rw [hstep]
        exact h1
      · simp only [List.map_cons, runArrivals]
        rw [hstep]
        exact h2
      · simp only [List.map_cons, runArrivals]
        rw [hstep]
        have hlen3 : (i :: i2 :: rest'').length - 1 = ((i2 :: rest'').length - 1) + 1 := by
          simp
        rw [hlen3, List.replicate_succ]
        show RecieveResult.busy :: (runArrivals cfg
            { registry := [(c, [(t, trOf N payload fname (done ++ [i]) (ps ++ [p]))])],
              fs := (ps ++ [p]).zip ((done ++ [i]).map payload), nextId := s.nextId + 1 }
            (List.map (mkArrival c t N payload fname) (i2 :: rest''))).2 = _
        rw [h3]
        simp

/-- C1: for every transmission whose `N` chunks all arrive, in any arrival
order, without exceeding the quota, the run replies `BUSY` to every chunk
but the last, and the last arrival returns `Complete` carrying the
client-supplied `originalFilename` and an output file whose bytes are the
exact concatenation of the chunk payloads in ascending chunk-index order
`1..N`. -/
theorem c1_assembly_in_index_order (cfg : Config) (c t : String) (N : Nat)
    (payload : Nat → Bytes) (fname : String) (perm : List Nat)
    (hfname : fname ≠ "") (hN : 1 ≤ N)
    (hperm : List.Perm perm (List.range' 1 N))
    (hquota : ((List.range' 1 N).map (fun j => (payload j).length)).sum
      ≤ cfg.maxFileSize) :
    ∃ out,
      (runArrivals cfg {} (perm.map (mkArrival c t N payload fname))).2
        = List.replicate (perm.length - 1) .busy
          ++ [.complete out (some fname) (((List.range' 1 N).map payload).flatten)] := by
  have hne : perm ≠ [] := by
    intro h
    have := hperm.length_eq
    rw [h] at this
    simp at this
    omega
  obtain ⟨out, _, _, h3⟩ := c1_run cfg c t N payload fname hfname hN hquota perm [] [] {}
    hne (by simpa using hperm) rfl List.nodup_nil rfl rfl
  exact ⟨out, h3⟩

/-- C1 (witness): chunks 2 then 1 (terminal) of a two-chunk transmission
arrive out of order; the reply sequence is `BUSY` then `Complete` with the
payloads concatenated in index order. -/
theorem c1_witness :
    ∃ out, (runArrivals ⟨"/tmp/", 1024, fun _ => none⟩ {}
        ([2, 1].map (mkArrival "c" "t" 2 (fun i => [i]) "f.png"))).2
      = List.replicate (([2, 1] : List Nat).length - 1) .busy
        ++ [.complete out (some "f.png")
            (((List.range' 1 2).map (fun i => [i])).flatten)] :=
  c1_assembly_in_index_order ⟨"/tmp/", 1024, fun _ => none⟩ "c" "t" 2 (fun i => [i]) "f.png"
    [2, 1] (by decide) (by omega) (by decide) (by decide)

/-- C5: after a transmission completes and is assembled, no chunk temp file
of the transmission remains on disk, its registry entry (and the
ClientSession, which then holds no other transmissions) is gone, and the
assembled output file itself has been deleted after the consumer callback:
the run ends with an empty registry and an empty filesystem. -/
theorem c5_cleanup_after_assembly (cfg : Config) (c t : String) (N : Nat)
    (payload : Nat → Bytes) (fname : String) (perm : List Nat)
    (hfname : fname ≠ "") (hN : 1 ≤ N)
    (hperm : List.Perm perm (List.range' 1 N))
    (hquota : ((List.range' 1 N).map (fun j => (payload j).length)).sum
      ≤ cfg.maxFileSize) :
    (runArrivals cfg {} (perm.map (mkArrival c t N payload fname))).1.registry = [] ∧
    (runArrivals cfg {} (perm.map (mkArrival c t N payload fname))).1.fs = [] := by
  have hne : perm ≠ [] := by
    intro h
    have := hperm.length_eq
    rw [h] at this
    simp at this
    omega
  obtain ⟨out, h1, h2, _⟩ := c1_run cfg c t N payload fname hfname hN hquota perm [] [] {}
    hne (by simpa using hperm) rfl List.nodup_nil rfl rfl
  exact ⟨h1, h2⟩

/-- C5 (witness): the concrete two-chunk out-of-order run of `c1_witness`
leaves both the registry and the filesystem empty. -/
theorem c5_witness :
    (runArrivals ⟨"/tmp/", 1024, fun _ => none⟩ {}
        ([2, 1].map (mkArrival "c" "t" 2 (fun i => [i]) "f.png"))).1.registry = [] ∧
    (runArrivals ⟨"/tmp/", 1024, fun _ => none⟩ {}
        ([2, 1].map (mkArrival "c" "t" 2 (fun i => [i]) "f.png"))).1.fs = [] :=
  c5_cleanup_after_assembly ⟨"/tmp/", 1024, fun _ => none⟩ "c" "t" 2 (fun i => [i]) "f.png"
    [2, 1] (by decide) (by omega) (by decide) (by decide)

theorem akeys_aset {κ α : Type} [DecidableEq κ] (l : List (κ × α)) (k : κ) (v : α) :
    akeys (aset l k v) = if (alookup l k).isSome then akeys l else akeys l ++ [k] := by
  induction l with
  | nil => simp [aset, alookup, akeys]
  | cons hd tl ih =>
    obtain ⟨q, w⟩ := hd
    by_cases hq : q = k
    · subst hq; simp [aset, alookup, akeys]
    · simp only [aset, alookup, if_neg hq, akeys, List.map_cons]
      show q :: akeys (aset tl k v) = _
      rw [ih]
      by_cases h2 : (alookup tl k).isSome <;> simp [h2, akeys]

theorem storeAndMark_cummulated (cfg : Config) (tr0 : Transmission) (a : Arrival)
    (p : String) : (storeAndMark cfg tr0 a p).cummulatedSize = tr0.cummulatedSize := by
  unfold storeAndMark
  rcases a.originalFilename with _ | ofn
  · rfl
  · by_cases hofn : ofn = "" <;> simp [hofn]

theorem recieveFile_busy_inv (cfg : Config) (s : GState) (a : Arrival)
    (h : (recieveFile cfg s a).1 = .busy) :
    quotaHit cfg a (bumpSize s a) = false ∧
    ∃ p, getUniqueFilename s.fs cfg.tmpDir s.nextId a.now = some p ∧
      completeCheck (storeAndMark cfg (bumpSize s a) a p) = false ∧
      (recieveFile cfg s a).2 =
        { registry := aset s.registry a.clientId
            (aset ((alookup s.registry a.clientId).getD []) a.transId
              (storeAndMark cfg (bumpSize s a) a p)),
          fs := aset s.fs p a.filedata, nextId := s.nextId + 1 } := by
  by_cases hq : quotaHit cfg a (bumpSize s a) = true
  · rw [recieveFile_quota cfg s a hq] at h
    simp at h
  · rw [Bool.not_eq_true] at hq
    refine ⟨hq, ?_⟩
    obtain ⟨p, halloc⟩ := Option.isSome_iff_exists.mp
      (getUniqueFilename_isSome s.fs cfg.tmpDir s.nextId a.now)
    refine ⟨p, halloc, ?_⟩
    by_cases hcc : completeCheck (storeAndMark cfg (bumpSize s a) a p) = true
    · exfalso
      rcases hgf : getFinalFile (aset s.fs p a.filedata) cfg.tmpDir (s.nextId + 1) a.now
          (storeAndMark cfg (bumpSize s a) a p) with ⟨ofd, fs2⟩
      cases ofd with
      | none =>
        rw [recieveFile_assemble_err cfg s a p fs2 hq halloc hcc hgf] at h
        simp at h
      | some fd =>
        rw [recieveFile_assembled cfg s a p fd fs2 hq halloc hcc hgf] at h
        simp at h
    · rw [Bool.not_eq_true] at hcc
      refine ⟨hcc, ?_⟩
      rw [recieveFile_busy cfg s a p hq halloc hcc]

theorem c10_run (cfg : Config) (c t : String) :
    ∀ (as : List Arrival) (s : GState) (tr : Transmission),
    (∀ a ∈ as, a.clientId = c ∧ a.transId = t) →
    (∀ r ∈ (runArrivals cfg s as).2, r = .busy) →
    alookup ((alookup s.registry c).getD []) t = some tr →
    (akeys tr.chunks).Nodup →
    ∃ tr', alookup ((alookup (runArrivals cfg s as).1.registry c).getD []) t = some tr' ∧
      tr'.cummulatedSize = tr.cummulatedSize + (as.map (fun a => a.filedata.length)).sum ∧
      (akeys tr'.chunks).Nodup ∧
      (∀ k, k ∈ akeys tr'.chunks ↔
        k ∈ akeys tr.chunks ∨ k ∈ as.map (fun a => a.partId)) := by
  intro as
  induction as with
  | nil =>
    intro s tr _ _ hlook hnd
    exact ⟨tr, hlook, by simp, hnd, by simp⟩
  | cons a rest ih =>
    intro s tr hmem hbusy hlook hnd
    have hac : a.clientId = c := (hmem a (by simp)).1
    have hat : a.transId = t := (hmem a (by simp)).2
    have hstepbusy : (recieveFile cfg s a).1 = .busy := by
      apply hbusy
      simp [runArrivals]
    obtain ⟨hq, p, halloc, hcc, hstate⟩ := recieveFile_busy_inv cfg s a hstepbusy
    have hbump : bumpSize s a
        = { tr with cummulatedSize := tr.cummulatedSize + a.filedata.length } := by
      unfold bumpSize
      rw [hac, hat, hlook]
    have htr2cum : (storeAndMark cfg (bumpSize s a) a p).cummulatedSize
        = tr.cummulatedSize + a.filedata.length := by
      rw [storeAndMark_cummulated, hbump]
    have htr2chunks : (storeAndMark cfg (bumpSize s a) a p).chunks
        = aset tr.chunks a.partId p := by
      rw [storeAndMark_chunks, hbump]
    have hkeys : akeys (storeAndMark cfg (bumpSize s a) a p).chunks
        = if (alookup tr.chunks a.partId).isSome then akeys tr.chunks
          else akeys tr.chunks ++ [a.partId] := by
      rw [htr2chunks, akeys_aset]
    have hnd2 : (akeys (storeAndMark cfg (bumpSize s a) a p).chunks).Nodup := by
      rw [hkeys]
      by_cases h2 : (alookup tr.chunks a.partId).isSome
      · simpa [h2] using hnd
      · rw [if_neg h2]
        have hnm : a.partId ∉ akeys tr.chunks := by
          rw [← alookup_isSome_iff]
          simp [h2]
        simp [List.nodup_append, hnd, hnm]
    have hlook2 : alookup ((alookup (recieveFile cfg s a).2.registry c).getD []) t
        = some (storeAndMark cfg (bumpSize s a) a p) := by
      rw [hstate]
      simp only [hac, hat]
      rw [alookup_aset_self]
      simp only [Option.getD_some]
      rw [alookup_aset_self]
    have hbusy' : ∀ r ∈ (runArrivals cfg (recieveFile cfg s a).2 rest).2, r = .busy := by
      intro r hr
      apply hbusy
      simp only [runArrivals, List.mem_cons]
      exact Or.inr hr
    obtain ⟨tr', h1, h2, h3, h4⟩ := ih (recieveFile cfg s a).2
      (storeAndMark cfg (bumpSize s a) a p)
      (fun b hb => hmem b (by simp [hb])) hbusy' hlook2 hnd2
    refine ⟨tr', h1, ?_, h3, ?_⟩
    · rw [h2, htr2cum]
      simp
      omega
    · intro k
      rw [h4 k, hkeys]
      by_cases h5 : (alookup tr.chunks a.partId).isSome
      · have hmemk : a.partId ∈ akeys tr.chunks := (alookup_isSome_iff _ _).mp h5
        rw [if_pos h5]
        simp only [List.map_cons, List.mem_cons]
        constructor
        · rintro (hk | hk)
          · exact Or.inl hk
          · exact Or.inr (Or.inr hk)
        · rintro (hk | hk | hk)
          · exact Or.inl hk
          · exact Or.inl (hk ▸ hmemk)
          · exact Or.inr hk
      · rw [if_neg h5]
        simp only [List.map_cons, List.mem_cons, List.mem_append, List.mem_singleton,
          List.not_mem_nil, or_false]
        constructor
        · rintro ((hk | hk) | hk)
          · exact Or.inl hk
          · exact Or.inr (Or.inl hk)
          · exact Or.inr (Or.inr hk)
        · rintro (hk | hk | hk)
          · exact Or.inl (Or.inl hk)
          · exact Or.inl (Or.inr hk)
          · exact Or.inr hk

/-- C10: for a sequence of chunk arrivals for one `(clientId, transId)` pair
that stays in progress (every call replies `BUSY`), the transmission's
`cummulatedSize` equals the sum of the payload lengths of ALL arrivals —
a re-sent duplicate index adds its payload length again — while the
chunk-path mapping holds exactly one entry per DISTINCT index, the
duplicate's path having overwritten the earlier one. -/
theorem c10_duplicate_chunks (cfg : Config) (c t : String) (a0 : Arrival)
    (rest : List Arrival)
    (hmem : ∀ a ∈ a0 :: rest, a.clientId = c ∧ a.transId = t)
    (hbusy : ∀ r ∈ (runArrivals cfg {} (a0 :: rest)).2, r = .busy) :
    ∃ tr, alookup ((alookup (runArrivals cfg {} (a0 :: rest)).1.registry c).getD []) t
        = some tr ∧
      tr.cummulatedSize = ((a0 :: rest).map (fun a => a.filedata.length)).sum ∧
      tr.chunks.length = ((a0 :: rest).map (fun a => a.partId)).toFinset.card := by
  have hac : a0.clientId = c := (hmem a0 (by simp)).1
  have hat : a0.transId = t := (hmem a0 (by simp)).2
  have hstepbusy : (recieveFile cfg {} a0).1 = .busy := by
    apply hbusy
    simp [runArrivals]
  obtain ⟨hq, p, halloc, hcc, hstate⟩ := recieveFile_busy_inv cfg {} a0 hstepbusy
  have hbump : bumpSize {} a0 = { cummulatedSize := a0.filedata.length } := by
    unfold bumpSize
    simp [alookup]
  have htr2cum : (storeAndMark cfg (bumpSize {} a0) a0 p).cummulatedSize
      = a0.filedata.length := by
    rw [storeAndMark_cummulated, hbump]
  have htr2chunks : (storeAndMark cfg (bumpSize {} a0) a0 p).chunks
      = [(a0.partId, p)] := by
    rw [storeAndMark_chunks, hbump]
    rfl
  have hlook2 : alookup ((alookup (recieveFile cfg {} a0).2.registry c).getD []) t
      = some (storeAndMark cfg (bumpSize {} a0) a0 p) := by
    rw [hstate]
    simp only [hac, hat]
    rw [alookup_aset_self]
    simp only [Option.getD_some]
    rw [alookup_aset_self]
  have hbusy' : ∀ r ∈ (runArrivals cfg (recieveFile cfg {} a0).2 rest).2, r = .busy := by
    intro r hr
    apply hbusy
    simp only [runArrivals, List.mem_cons]
    exact Or.inr hr
  obtain ⟨tr', h1, h2, h3, h4⟩ := c10_run cfg c t rest (recieveFile cfg {} a0).2
    (storeAndMark cfg (bumpSize {} a0) a0 p)
    (fun b hb => hmem b (by simp [hb])) hbusy' hlook2
    (by rw [htr2chunks]; simp [akeys])
  refine ⟨tr', h1, ?_, ?_⟩
  · rw [h2, htr2cum]
    simp
  · have hset : (akeys tr'.chunks).toFinset
        = ((a0 :: rest).map (fun a => a.partId)).toFinset := by
      apply Finset.ext
      intro k
      simp only [List.mem_toFinset]
      rw [h4 k, htr2chunks]
      simp [akeys]
    calc tr'.chunks.length = (akeys tr'.chunks).length := by simp [akeys]
      _ = (akeys tr'.chunks).toFinset.card := (List.toFinset_card_of_nodup h3).symm
      _ = ((a0 :: rest).map (fun a => a.partId)).toFinset.card := by rw [hset]

/-- C10 (witness): two arrivals with the same chunk index 1 (payloads of 2
and 3 bytes): the cumulative size is 5 — the duplicate counted again —
while the chunk mapping holds a single entry. -/
theorem c10_witness :
    ∃ tr, alookup ((alookup (runArrivals ⟨"/tmp/", 1024, fun _ => none⟩ {}
        [⟨"c", "t", 1, [1, 2], none, none, none, 0⟩,
         ⟨"c", "t", 1, [3, 4, 5], none, none, none, 0⟩]).1.registry "c").getD []) "t"
        = some tr ∧
      tr.cummulatedSize = (([⟨"c", "t", 1, [1, 2], none, none, none, 0⟩,
         ⟨"c", "t", 1, [3, 4, 5], none, none, none, 0⟩] : List Arrival).map
          (fun a => a.filedata.length)).sum ∧
      tr.chunks.length = (([⟨"c", "t", 1, [1, 2], none, none, none, 0⟩,
         ⟨"c", "t", 1, [3, 4, 5], none, none, none, 0⟩] : List Arrival).map
          (fun a => a.partId)).toFinset.card :=
  c10_duplicate_chunks ⟨"/tmp/", 1024, fun _ => none⟩ "c" "t"
    ⟨"c", "t", 1, [1, 2], none, none, none, 0⟩
    [⟨"c", "t", 1, [3, 4, 5], none, none, none, 0⟩]
    (by decide) (by decide)

/-- C2 (witness): the amended abort behaviour at a concrete over-quota
arrival: the quota signal is returned and the filesystem is untouched. -/
theorem c2_amended_witness :
    (recieveFile ⟨"/w/", 4, fun _ => none⟩ {}
        ⟨"cl", "tr", 1, [7, 7, 7, 7, 7], none, none, none, 0⟩).1 = .quotaExceeded ∧
    (recieveFile ⟨"/w/", 4, fun _ => none⟩ {}
        ⟨"cl", "tr", 1, [7, 7, 7, 7, 7], none, none, none, 0⟩).2.fs = [] := by
  have h := c2_amended ⟨"/w/", 4, fun _ => none⟩ {}
    ⟨"cl", "tr", 1, [7, 7, 7, 7, 7], none, none, none, 0⟩ (by decide)
  exact ⟨h.1, h.2.1⟩

/-- C4 (witness): the amended order facts at a concrete over-quota arrival:
the abort leaves the filesystem exactly as it was (empty). -/
theorem c4_amended_witness :
    (recieveFile ⟨"/w/", 5, fun _ => none⟩ {}
        ⟨"cl", "tr", 1, [9, 9, 9, 9, 9, 9], none, none, none, 0⟩).2.fs = [] := by
  have h := c4_amended ⟨"/w/", 5, fun _ => none⟩ {}
    ⟨"cl", "tr", 1, [9, 9, 9, 9, 9, 9], none, none, none, 0⟩
  exact h.2.2.1 (h.2.1.mpr (by decide))

/-- C6 (witness): a terminal single-chunk upload whose `x-data` fails to
parse still completes, with the same outcome as under a succeeding
parser. -/
theorem c6_witness :
    (recieveFile ⟨"/tmp/", 1000, fun _ => none⟩ {}
        ⟨"c", "t", 1, [1, 2], some "f.txt", some "not json", none, 0⟩).1
      = (recieveFile ⟨"/tmp/", 1000, fun _ => some [("k", "v")]⟩ {}
        ⟨"c", "t", 1, [1, 2], some "f.txt", some "not json", none, 0⟩).1 :=
  (c6_metadata_default ⟨"/tmp/", 1000, fun _ => none⟩ ⟨"/tmp/", 1000, fun _ => some [("k", "v")]⟩
    {} ⟨"c", "t", 1, [1, 2], some "f.txt", some "not json", none, 0⟩
    rfl rfl "f.txt" rfl (by decide) "not json" rfl (by decide) rfl).2

end FUH
